import Mathlib

/-!
Verification of the single-step execution engine
(`python_modules/dagster/dagster/core/execution/plan/execute_step.py`).

The Python generators are shallowly embedded as Lean functions.  A generator
that yields a sequence of events and may end by raising an exception is
modelled as a pair `(List Event × Option Err)`: the events yielded before
normal termination or before the exception, together with the exception (if
any).  Pluggable collaborators (type checkers, IO managers, materializers,
input sources, the user compute function) are modelled as explicit data
carried by the step context, since only their interface behaviour is visible
to this file's code.
-/

namespace ExecuteStep

/-- Runtime values flowing through a step.  Values are opaque to the engine;
`none` models the Python value `None` (used by the implicit Nothing output). -/
abbrev Val := Option Nat

/-- An `EventMetadataEntry`; its payload is opaque to the engine. -/
abbrev EMeta := String

/-- `AssetPartitions`: an asset key plus a list of partition identifiers
(empty list means "whole asset, unpartitioned"). -/
structure AssetPartitions where
  asset_key : String
  partitions : List String
deriving DecidableEq

/-- A metadata entry attached to an output or returned by an IO manager:
either a plain `EventMetadataEntry` or a `PartitionSpecificMetadataEntry`
(which wraps an entry and names the partition it targets). -/
inductive MetaEntry where
  | plain (entry : EMeta)
  | partitioned (partition : String) (entry : EMeta)
deriving DecidableEq

/-- An `AssetMaterialization` record (also standing in for legacy
`Materialization`, which the engine treats identically). -/
structure AssetMaterialization where
  asset_key : String
  partition : Option String
  metadata_entries : List EMeta
deriving DecidableEq

/-! ## Asset-partition flattening and deduplication (`_flatten_asset_partitions`,
`_dedup_asset_partitions`) -/

/-- `_flatten_asset_partitions`: no claim gives no pairs; a claim with no
partitions gives one (asset, no-partition) pair; a claim with N partitions
gives N pairs. -/
def flatten_asset_partitions : Option AssetPartitions → List (String × Option String)
  | none => []
  | some ap =>
    if ap.partitions.isEmpty then [(ap.asset_key, none)]
    else ap.partitions.map (fun p => (ap.asset_key, some p))

/-- Insertion into a Python `set`, modelled as an insertion-ordered
duplicate-free list. -/
def insertIfAbsent (ps : List String) (p : String) : List String :=
  if p ∈ ps then ps else ps ++ [p]

/-- Update the (first) entry of an association list at key `k` with `f`,
appending `(k, f [])` when `k` is absent.  This models one access to a Python
`defaultdict(set)` entry. -/
def updateAssoc : List (String × List String) → String → (List String → List String) → List (String × List String)
  | [], k, f => [(k, f [])]
  | kv :: rest, k, f =>
    if kv.1 = k then (kv.1, f kv.2) :: rest else kv :: updateAssoc rest k f

/-- One iteration of the `_dedup_asset_partitions` loop body: touch the key
(the `|= set()` branch when the partition list is empty), then add every
partition to the key's set. -/
def dedupStep (acc : List (String × List String)) (ap : AssetPartitions) : List (String × List String) :=
  let acc1 := if ap.partitions.isEmpty then updateAssoc acc ap.asset_key id else acc
  ap.partitions.foldl (fun a p => updateAssoc a ap.asset_key (fun ps => insertIfAbsent ps p)) acc1

/-- `_dedup_asset_partitions`: merge claims by asset key, unioning partition
sets, and return one `AssetPartitions` per key.  Python's insertion-ordered
`dict` is modelled as an association list; set iteration order is fixed to
insertion order (claims about the result are stated up to set membership). -/
def dedup_asset_partitions (aps : List AssetPartitions) : List AssetPartitions :=
  (aps.foldl dedupStep []).map (fun kv => ⟨kv.1, kv.2⟩)

/-- The partition list recorded for key `k` (empty when `k` is absent). -/
def partitionsFor : List AssetPartitions → String → List String
  | [], _ => []
  | ap :: rest, k => if ap.asset_key = k then ap.partitions else partitionsFor rest k

/-- `k` is one of the asset keys referenced by the claim list. -/
def keyMem (aps : List AssetPartitions) (k : String) : Prop :=
  ∃ ap ∈ aps, ap.asset_key = k

/-- Some claim for asset `k` carries partition `p`. -/
def unionMem (aps : List AssetPartitions) (k p : String) : Prop :=
  ∃ ap ∈ aps, ap.asset_key = k ∧ p ∈ ap.partitions

/-- Value stored at key `k` in the association list (empty when absent). -/
def assocVal : List (String × List String) → String → List String
  | [], _ => []
  | kv :: rest, k => if kv.1 = k then kv.2 else assocVal rest k

/-- The keys of the association list, in insertion order. -/
def keysOf (m : List (String × List String)) : List String :=
  m.map Prod.fst

/-- Appending a key to an insertion-ordered key set. -/
def mergeKey (ks : List String) (k : String) : List String :=
  if k ∈ ks then ks else ks ++ [k]

/-- The partition-set fold of one `_dedup_asset_partitions` loop iteration. -/
def partFold (acc : List (String × List String)) (k : String) (ps : List String) : List (String × List String) :=
  ps.foldl (fun a p => updateAssoc a k (fun l => insertIfAbsent l p)) acc

/-! ## Data model: collaborator interfaces, events, errors -/

/-- A type-materializer config spec; opaque to the engine. -/
abbrev Spec := Nat

/-- A well-formed `TypeCheck` result: success flag, description, metadata. -/
structure TypeCheckV where
  success : Bool
  description : Option String
  metadata_entries : List EMeta
deriving DecidableEq

/-- What `dagster_type.type_check` actually returned: a well-formed
`TypeCheck`, or a value of some other Python type (carrying that type's
name). -/
inductive TypeCheckRet where
  | wellFormed (tc : TypeCheckV)
  | malformed (returnTypeName : String)
deriving DecidableEq

/-- `DagsterTypeKind`: the engine only distinguishes the Nothing sentinel
kind from everything else. -/
inductive TypeKind where
  | nothingKind
  | normalKind
deriving DecidableEq

/-- One element yielded by `materialize_runtime_values`: a materialization,
or a value of some other type (fatal). -/
inductive MatElt where
  | mat (m : AssetMaterialization)
  | badElt (tyName : String)
deriving DecidableEq

/-- Behaviour of a `materialize_runtime_values` call: raises, or returns a
sequence of elements. -/
inductive MaterializerRet where
  | raises (msg : String)
  | returns (elts : List MatElt)

/-- A `DagsterType` as seen by this engine: its kind, display name, and its
pluggable checker and materializer. -/
structure DagsterTypeM where
  kind : TypeKind
  display_name : String
  type_check : Val → TypeCheckRet
  materialize_runtime_values : Spec → Val → MaterializerRet

/-- An exception escaping user-supplied code.  `failure` and
`retryRequested` are the two recognized control-flow signals (`Failure` and
`RetryRequested`); `otherExc` is any other exception. -/
inductive Exc where
  | failure
  | retryRequested
  | otherExc (msg : String)
deriving DecidableEq

/-- One element of the lazy sequence returned by the IO manager's
`handle_output`: a materialization, a metadata entry (plain or
partition-targeted), or a value of any other type (fatal). -/
inductive StoreElt where
  | mat (m : AssetMaterialization)
  | metaEntry (e : MetaEntry)
  | badElt (tyName : String)
deriving DecidableEq

/-- Behaviour of a `handle_output` call: the call itself raises; or it
returns `None`; or it returns a lazily-iterated sequence of elements,
optionally followed by an exception raised while the sequence is being
pulled (i.e. after the call has already returned). -/
inductive HandleOutputRet where
  | raises (e : Exc)
  | returnsNone
  | returnsGen (elts : List StoreElt) (pullExc : Option Exc)

/-- An IO manager (storage backend) as seen by this engine. -/
structure IOManagerM where
  handle_output : Val → HandleOutputRet
  get_output_asset : Option AssetPartitions
  isIntermediateAdapter : Bool

/-- A step output declaration together with the objects the engine resolves
from it (its dagster type, its IO manager, its own asset claim).  The
`step_output` / `output_def` indirection of the source (both looked up by
name) is collapsed into this one record. -/
structure OutputDefM where
  name : String
  is_dynamic : Bool
  optional : Bool
  dagster_type : DagsterTypeM
  io_manager_key : String
  definition_asset : Option AssetPartitions
  manager : IOManagerM

/-- `StepOutputHandle`: identity of one physical output occurrence. -/
structure StepOutputHandle where
  step_key : String
  output_name : String
  mapping_key : Option String
deriving DecidableEq

/-- The lifecycle events this engine emits.  Events forwarded verbatim from
input sources are modelled by `externalEvt` (input sources emit their own
event kinds, never the step lifecycle kinds). -/
inductive DagsterEventM where
  | stepRestarted (priorAttempts : Nat)
  | stepStart
  | stepInputEvt (inputName : String) (success : Bool) (description : Option String)
      (metadataEntries : List EMeta)
  | stepOutputEvt (handle : StepOutputHandle) (success : Bool) (description : Option String)
      (checkMetadata : List EMeta) (version : Option String) (outputMetadata : List EMeta)
  | stepMaterialization (m : AssetMaterialization) (inputAssets : Option (List AssetPartitions))
  | stepExpectationResult (r : Nat)
  | handledOutput (outputName : String) (managerKey : String) (messageOverride : Option String)
      (metadataEntries : List EMeta)
  | stepSuccess (durationMs : Nat)
  | externalEvt (tag : Nat)
deriving DecidableEq

/-- The exceptions this engine raises or propagates. -/
inductive Err where
  | invariantViolation (msg : String)
  | stepOutputNotFound (msg : String) (stepKey : String) (outputName : String)
  | typeCheckDidNotPass (description : String) (metadataEntries : List EMeta)
  | checkError (msg : String)
  | userFailure
  | retryRequestedErr
  | stepExecutionError (stepKey : String) (solidDefName : String) (solidName : String) (msg : String)
  | handleOutputError (stepKey : String) (outputName : String) (msg : String)
  | typeMaterializationError (msg : String)
  | rawExc (msg : String)
deriving DecidableEq

/-- `user_code_error_boundary` with `control_flow_exceptions=[Failure,
RetryRequested]`.  Modelled from the spec (§7): the two control-flow signals
propagate unchanged; any other exception is wrapped by `wrap` (the
boundary-specific error constructor). -/
def boundaryWrap (wrap : String → Err) : Exc → Err
  | .failure => .userFailure
  | .retryRequested => .retryRequestedErr
  | .otherExc m => wrap m

/-- An exception propagating with no boundary active: control-flow signals
still travel as themselves; any other exception escapes raw (unwrapped). -/
def raiseRaw : Exc → Err
  | .failure => .userFailure
  | .retryRequested => .retryRequestedErr
  | .otherExc m => .rawExc m

/-- An `Output` value produced by user compute. -/
structure OutputV where
  output_name : String
  value : Val
  metadata_entries : List MetaEntry
deriving DecidableEq

/-- A `DynamicOutput` value produced by user compute. -/
structure DynOutputV where
  output_name : String
  mapping_key : String
  value : Val
  metadata_entries : List MetaEntry
deriving DecidableEq

/-- `SolidOutputUnion`: one item of the user compute sequence.  `matEvt`
covers both `AssetMaterialization` and legacy `Materialization` (dispatched
identically); `unexpected` is any other value (hits `check.failed`). -/
inductive SolidOutputUnionM where
  | out (o : OutputV)
  | dynOut (d : DynOutputV)
  | matEvt (m : AssetMaterialization)
  | expectation (r : Nat)
  | unexpected (tag : Nat)
deriving DecidableEq

/-- The common shape of `Output` and `DynamicOutput` used past the
classifier (`output.mapping_key if isinstance(output, DynamicOutput) else
None`). -/
structure OutputLike where
  output_name : String
  value : Val
  metadata_entries : List MetaEntry
  mapping_key : Option String
deriving DecidableEq

def OutputV.toLike (o : OutputV) : OutputLike :=
  ⟨o.output_name, o.value, o.metadata_entries, none⟩

def DynOutputV.toLike (d : DynOutputV) : OutputLike :=
  ⟨d.output_name, d.value, d.metadata_entries, some d.mapping_key⟩

/-- One item of an input source's `load_input_object` sequence: an event
(forwarded verbatim; sources emit their own kinds, modelled opaquely) or the
resolved input value. -/
inductive LoadItem where
  | evt (tag : Nat)
  | value (v : Val)
deriving DecidableEq

/-- A `StepInput` together with the objects resolved from its source. -/
structure StepInputM where
  name : String
  dagster_type : DagsterTypeM
  asset_claims : List AssetPartitions
  load_items : List LoadItem

/-- The step context: everything `execute_step.py` reads from
`SystemStepExecutionContext`, with each pluggable collaborator modelled by
its interface behaviour. -/
structure StepContextM where
  step_key : String
  solid_handle : List String
  solid_name : String
  solid_def_name : String
  step_inputs : List StepInputM
  step_outputs : List OutputDefM
  output_capture : Bool
  memoized_run : Bool
  resolve_version : StepOutputHandle → Option String
  solids_config : String → Option (List (String × Spec))

/-- The user compute generator handed to the Compute Invoker: the items it
yields and the exception (if any) it raises after yielding them. -/
structure ComputeGen where
  items : List SolidOutputUnionM
  terminal : Option Exc

/-! ## The engine functions -/

/-- `_do_type_check`: run the pluggable checker; a return value that is not
a well-formed `TypeCheck` becomes a failed check (the generated description
is abstracted to a fixed prefix plus the type names). -/
def do_type_check (dt : DagsterTypeM) (v : Val) : TypeCheckV :=
  match dt.type_check v with
  | .wellFormed tc => tc
  | .malformed rt =>
    ⟨false,
      some ("Type checks must return TypeCheck. Type check for type " ++ dt.display_name ++
        " returned value of type " ++ rt ++ "."),
      []⟩

/-- `_create_step_input_event`. -/
def create_step_input_event (input_name : String) (tc : TypeCheckV) (success : Bool) : DagsterEventM :=
  .stepInputEvt input_name success tc.description tc.metadata_entries

/-- `_type_checked_event_sequence_for_input`: yield the input type-check
event, then raise if the check failed. -/
def type_checked_event_sequence_for_input (ctx : StepContextM) (input_name : String) (v : Val) :
    List DagsterEventM × Option Err :=
  match ctx.step_inputs.find? (fun si => si.name = input_name) with
  | none => ([], some (.checkError "step has no step input named input_name"))
  | some si =>
    let tc := do_type_check si.dagster_type v
    ([create_step_input_event input_name tc tc.success],
      if tc.success then none
      else some (.typeCheckDidNotPass ("Type check failed for step input " ++ input_name)
        tc.metadata_entries))

/-- The plain (`EventMetadataEntry`) entries of a metadata entry list. -/
def plainEntries (l : List MetaEntry) : List EMeta :=
  l.filterMap fun e =>
    match e with
    | .plain m => some m
    | .partitioned _ _ => none

/-- `_type_check_output`: yield the step-output (type-check) event, then
raise if the check failed. -/
def type_check_output (ctx : StepContextM) (handle : StepOutputHandle) (o : OutputLike)
    (version : Option String) : List DagsterEventM × Option Err :=
  match ctx.step_outputs.find? (fun od => od.name = o.output_name) with
  | none => ([], some (.checkError "solid has no output def named output_name"))
  | some od =>
    let tc := do_type_check od.dagster_type o.value
    ([.stepOutputEvt handle tc.success tc.description tc.metadata_entries version
        (plainEntries o.metadata_entries)],
      if tc.success then none
      else some (.typeCheckDidNotPass ("Type check failed for step output " ++ o.output_name)
        tc.metadata_entries))

/-- The message of the both-claim configuration error. -/
def bothClaimMsg : String :=
  "Both the OutputDefinition and the IOManager of the output associate it with AssetPartitions."

/-- `_asset_partitions_for_output`: fatal if both the output definition and
the IO manager claim an asset target, otherwise whichever claims it. -/
def asset_partitions_for_output (output_def : OutputDefM) (output_manager : IOManagerM) :
    Except Err (Option AssetPartitions) :=
  match output_def.definition_asset, output_manager.get_output_asset with
  | some _, some _ => .error (.invariantViolation bothClaimMsg)
  | some d, none => .ok (some d)
  | none, m => .ok m

/-- The `metadata_mapping` dict initialisation: one empty bucket per
distinct partition of the flattened asset list (keyed by partition only). -/
def initMetadataMapping (flat_assets : List (String × Option String)) :
    List (Option String × List EMeta) :=
  flat_assets.foldl
    (fun acc kp => if kp.2 ∈ acc.map Prod.fst then acc else acc ++ [(kp.2, [])]) []

/-- Append one entry to the bucket named `k` (the buckets have distinct
keys, so this touches exactly one bucket). -/
def appendToBucket (m : List (Option String × List EMeta)) (k : Option String) (e : EMeta) :
    List (Option String × List EMeta) :=
  m.map (fun kv => if kv.1 = k then (kv.1, kv.2 ++ [e]) else kv)

/-- The metadata-routing loop of `_store_output`: a partition-targeted entry
goes only to its named partition's bucket (fatal if that partition has no
bucket); an untargeted entry goes to every bucket. -/
def routeEntries (m : List (Option String × List EMeta)) :
    List MetaEntry → Except Err (List (Option String × List EMeta))
  | [] => .ok m
  | .partitioned p e :: rest =>
    if some p ∈ m.map Prod.fst then routeEntries (appendToBucket m (some p) e) rest
    else .error (.invariantViolation
      "Output associated a metadata entry with a partition that is not one of the declared partition mappings.")
  | .plain e :: rest => routeEntries (m.map (fun kv => (kv.1, kv.2 ++ [e]))) rest

/-- Lookup of one bucket (`metadata_mapping[partition]`). -/
def bucketOf : List (Option String × List EMeta) → Option String → List EMeta
  | [], _ => []
  | kv :: rest, k => if kv.1 = k then kv.2 else bucketOf rest k

/-- Metadata bucket for partition `p` as the spec words it (§4.5.5): the
untargeted entries plus exactly the entries targeted at `p`, in entry
order. -/
def bucketSpec (entries : List MetaEntry) (p : Option String) : List EMeta :=
  entries.filterMap fun e =>
    match e with
    | .plain m => some m
    | .partitioned q m => if some q = p then some m else none

/-- The collection loop over the IO manager's returned sequence
(`_store_output` lines 476-493): split into materializations and metadata
entries, fatal on any other element. -/
def classifyStoreElts : List StoreElt → Except Err (List AssetMaterialization × List MetaEntry)
  | [] => .ok ([], [])
  | .mat m :: rest => (classifyStoreElts rest).map (fun r => (m :: r.1, r.2))
  | .metaEntry e :: rest => (classifyStoreElts rest).map (fun r => (r.1, e :: r.2))
  | .badElt _ :: _ =>
    .error (.invariantViolation
      "IO manager on output has returned a value whose type is not one of AssetMaterialization, EventMetadataEntry, PartitionSpecificMetadataEntry.")

/-- The tail of `_store_output` after the manager's result has been
collected: route the metadata, then emit the per-partition materializations,
the manager materializations, and the handled-output event. -/
def store_finish (handle : StepOutputHandle) (o : OutputLike) (input_assets : List AssetPartitions)
    (output_def : OutputDefM) (output_manager : IOManagerM)
    (flat_assets : List (String × Option String))
    (metadata_mapping : List (Option String × List EMeta))
    (manager_materializations : List AssetMaterialization)
    (manager_metadata_entries : List MetaEntry) : List DagsterEventM × Option Err :=
  match routeEntries metadata_mapping (o.metadata_entries ++ manager_metadata_entries) with
  | .error e => ([], some e)
  | .ok mm =>
    (flat_assets.map (fun kp =>
        DagsterEventM.stepMaterialization ⟨kp.1, kp.2, bucketOf mm kp.2⟩ (some input_assets))
      ++ manager_materializations.map
          (fun m => DagsterEventM.stepMaterialization m (some input_assets))
      ++ [DagsterEventM.handledOutput handle.output_name output_def.io_manager_key
          (if output_manager.isIntermediateAdapter then
            some "Handled input using intermediate storage" else none)
          (plainEntries manager_metadata_entries)],
      none)

/-- `_store_output`.  The error boundary wraps only the `handle_output`
call; iterating a lazily returned sequence happens outside it, so a
pull-time exception propagates with no boundary active. -/
def store_output (ctx : StepContextM) (handle : StepOutputHandle) (o : OutputLike)
    (input_assets : List AssetPartitions) : List DagsterEventM × Option Err :=
  match ctx.step_outputs.find? (fun od => od.name = handle.output_name) with
  | none => ([], some (.checkError "solid has no output def named output_name"))
  | some output_def =>
    let output_manager := output_def.manager
    match asset_partitions_for_output output_def output_manager with
    | .error e => ([], some e)
    | .ok asset_partitions =>
      let flat_assets := flatten_asset_partitions asset_partitions
      let metadata_mapping := initMetadataMapping flat_assets
      match output_manager.handle_output o.value with
      | .raises exc =>
        ([], some (boundaryWrap
          (fun m => .handleOutputError ctx.step_key handle.output_name m) exc))
      | .returnsNone =>
        store_finish handle o input_assets output_def output_manager flat_assets
          metadata_mapping [] []
      | .returnsGen elts pullExc =>
        match classifyStoreElts elts with
        | .error e => ([], some e)
        | .ok parts =>
          match pullExc with
          | some exc => ([], some (raiseRaw exc))
          | none =>
            store_finish handle o input_assets output_def output_manager flat_assets
              metadata_mapping parts.1 parts.2

/-- The per-materialization loop of `_create_type_materializations`: emit
one materialization event (with NO input-asset list) per returned
materialization; fatal on any other value. -/
def matEltsToEvents : List MatElt → List DagsterEventM × Option Err
  | [] => ([], none)
  | .mat m :: rest =>
    let r := matEltsToEvents rest
    (DagsterEventM.stepMaterialization m none :: r.1, r.2)
  | .badElt _ :: _ =>
    ([], some (.invariantViolation
      "materialize_runtime_values has returned a value that is not an AssetMaterialization."))

/-- One materializer-spec invocation inside `_create_type_materializations`. -/
def create_type_mat_for_spec (ctx : StepContextM) (output_name : String) (value : Val)
    (spec : Spec) : List DagsterEventM × Option Err :=
  match ctx.step_outputs.find? (fun od => od.name = output_name) with
  | none => ([], some (.checkError "solid has no output def named output_name"))
  | some od =>
    match od.dagster_type.materialize_runtime_values spec value with
    | .raises m => ([], some (.typeMaterializationError m))
    | .returns elts => matEltsToEvents elts

/-- Sequence two event-producing computations: the second runs only when
the first did not raise. -/
def seqT (a : List DagsterEventM × Option Err) (b : Unit → List DagsterEventM × Option Err) :
    List DagsterEventM × Option Err :=
  match a.2 with
  | some e => (a.1, some e)
  | none =>
    let r := b ()
    (a.1 ++ r.1, r.2)

/-- The spec loop at one composition level of `_create_type_materializations`. -/
def typeMatsSpecs (ctx : StepContextM) (output_name : String) (value : Val) :
    List (String × Spec) → List DagsterEventM × Option Err
  | [] => ([], none)
  | (config_output_name, spec) :: rest =>
    if config_output_name = output_name then
      seqT (create_type_mat_for_spec ctx output_name value spec)
        (fun _ => typeMatsSpecs ctx output_name value rest)
    else typeMatsSpecs ctx output_name value rest

/-- The composition-hierarchy walk of `_create_type_materializations`. -/
def typeMatsLevels (ctx : StepContextM) (output_name : String) (value : Val) :
    List String → List DagsterEventM × Option Err
  | [] => ([], none)
  | level :: rest =>
    match ctx.solids_config level with
    | none => typeMatsLevels ctx output_name value rest
    | some specs =>
      seqT (typeMatsSpecs ctx output_name value specs)
        (fun _ => typeMatsLevels ctx output_name value rest)

/-- `_create_type_materializations`. -/
def create_type_materializations (ctx : StepContextM) (output_name : String) (value : Val) :
    List DagsterEventM × Option Err :=
  typeMatsLevels ctx output_name value ctx.solid_handle

/-- `_type_check_and_store_output` on the common output shape: build the
handle, record the value in the capture sink (when supplied), resolve the
version, then type-check, store, and run type materializations.  The second
component is the list of (handle, value) pairs recorded in the capture
sink. -/
def type_check_and_store_output (ctx : StepContextM) (o : OutputLike)
    (input_assets : List AssetPartitions) :
    List DagsterEventM × List (StepOutputHandle × Val) × Option Err :=
  let handle : StepOutputHandle := ⟨ctx.step_key, o.output_name, o.mapping_key⟩
  let captures := if ctx.output_capture then [(handle, o.value)] else []
  let version := if ctx.memoized_run then ctx.resolve_version handle else none
  let r1 := type_check_output ctx handle o version
  match r1.2 with
  | some e => (r1.1, captures, some e)
  | none =>
    let r2 := store_output ctx handle o input_assets
    match r2.2 with
    | some e => (r1.1 ++ r2.1, captures, some e)
    | none =>
      let r3 := create_type_materializations ctx o.output_name o.value
      (r1.1 ++ r2.1 ++ r3.1, captures, r3.2)

/-- The output name of a user event, when it is an output. -/
def outName? : SolidOutputUnionM → Option String
  | .out o => some o.output_name
  | .dynOut d => some d.output_name
  | _ => none

def isPlainOut : SolidOutputUnionM → Bool
  | .out _ => true
  | _ => false

def isDynOut : SolidOutputUnionM → Bool
  | .dynOut _ => true
  | _ => false

def dynKey? : SolidOutputUnionM → Option String
  | .dynOut d => some d.mapping_key
  | _ => none

/-- Lookup of a step output declaration by name. -/
def declOf (decls : List OutputDefM) (n : String) : Option OutputDefM :=
  decls.find? (fun od => od.name = n)

/-- The epilogue of `_step_output_error_checked_user_event_sequence`: after
the underlying sequence is exhausted, yield an implicit empty `Output` for
each unproduced required Nothing-typed output, and raise for any other
unproduced required output. -/
def epilogueGo (ctx : StepContextM) (seen : List String) :
    List OutputDefM → List SolidOutputUnionM × Option Err
  | [] => ([], none)
  | od :: rest =>
    if od.name ∈ seen ∨ od.optional then epilogueGo ctx seen rest
    else if od.dagster_type.kind = TypeKind.nothingKind then
      let r := epilogueGo ctx seen rest
      (SolidOutputUnionM.out ⟨od.name, none, []⟩ :: r.1, r.2)
    else
      ([], some (.stepOutputNotFound
        "Core compute did not return an output for non-optional output"
        ctx.step_key od.name))

/-- The main loop of `_step_output_error_checked_user_event_sequence`, with
its mutable state (`seen_outputs`, `seen_mapping_keys`) made explicit.
`tailErr` is the exception (already classified by the Compute Invoker) that
the underlying sequence raises after its last item, if any. -/
def classifierGo (ctx : StepContextM) :
    List SolidOutputUnionM → Option Err → List String → List (String × String) →
    List SolidOutputUnionM × Option Err
  | [], tailErr, seen, _ =>
    match tailErr with
    | some e => ([], some e)
    | none => epilogueGo ctx seen ctx.step_outputs
  | .out o :: rest, tailErr, seen, seenKeys =>
    (match declOf ctx.step_outputs o.output_name with
    | none => ([], some (.invariantViolation
        "Core compute returned an output that does not exist."))
    | some od =>
      if o.output_name ∈ seen then
        ([], some (.invariantViolation "Compute returned an output multiple times."))
      else if od.is_dynamic then
        ([], some (.invariantViolation
          "Compute for an output defined as dynamic must yield DynamicOutput, got Output."))
      else
        let r := classifierGo ctx rest tailErr (seen ++ [o.output_name]) seenKeys
        (SolidOutputUnionM.out o :: r.1, r.2))
  | .dynOut d :: rest, tailErr, seen, seenKeys =>
    (match declOf ctx.step_outputs d.output_name with
    | none => ([], some (.invariantViolation
        "Core compute returned an output that does not exist."))
    | some od =>
      if ¬od.is_dynamic then
        ([], some (.invariantViolation
          "Compute yielded a DynamicOutput, but did not use DynamicOutputDefinition."))
      else if (d.output_name, d.mapping_key) ∈ seenKeys then
        ([], some (.invariantViolation
          "Compute yielded a DynamicOutput with the same mapping key multiple times."))
      else
        let r := classifierGo ctx rest tailErr (seen ++ [d.output_name])
          (seenKeys ++ [(d.output_name, d.mapping_key)])
        (SolidOutputUnionM.dynOut d :: r.1, r.2))
  | other :: rest, tailErr, seen, seenKeys =>
    let r := classifierGo ctx rest tailErr seen seenKeys
    (other :: r.1, r.2)

/-- `_step_output_error_checked_user_event_sequence`. -/
def step_output_error_checked_user_event_sequence (ctx : StepContextM)
    (items : List SolidOutputUnionM) (tailErr : Option Err) :
    List SolidOutputUnionM × Option Err :=
  classifierGo ctx items tailErr [] []

/-- `_user_event_sequence_for_step_compute_fn`.  `iterate_with_context` and
`user_code_error_boundary` are outside this repository slice; modelled from
the spec (§4.7): the boundary is re-entered for every pull of the lazy
sequence, so an exception raised at ANY point of the iteration is
classified (control-flow signals unchanged, others wrapped into the step
execution failure naming the step and the compute node), and the items
yielded before it are preserved. -/
def user_event_sequence_for_step_compute_fn (ctx : StepContextM) (gen : ComputeGen) :
    List SolidOutputUnionM × Option Err :=
  (gen.items,
    gen.terminal.map (boundaryWrap
      (fun m => .stepExecutionError ctx.step_key ctx.solid_def_name ctx.solid_name m)))

/-- Result of iterating one input source's load sequence. -/
structure LoadRes where
  events : List DagsterEventM
  inputs : List (String × Val)
  err : Option Err

/-- The inner loop over `ensure_gen(step_input.source.load_input_object(...))`:
forward events, record the resolved value (fatal if the input name already
has one, per `check.invariant`). -/
def loadItemsGo (name : String) : List LoadItem → List (String × Val) → LoadRes
  | [], inputsAcc => ⟨[], inputsAcc, none⟩
  | .evt tag :: rest, inputsAcc =>
    let r := loadItemsGo name rest inputsAcc
    ⟨DagsterEventM.externalEvt tag :: r.events, r.inputs, r.err⟩
  | .value v :: rest, inputsAcc =>
    if inputsAcc.any (fun kv => kv.1 = name) then
      ⟨[], inputsAcc, some (.checkError "Invariant failed: step input name already in inputs")⟩
    else loadItemsGo name rest (inputsAcc ++ [(name, v)])

/-- Result of the whole input-loading phase. -/
structure InputPhaseRes where
  events : List DagsterEventM
  inputs : List (String × Val)
  input_assets : List AssetPartitions
  err : Option Err

/-- The input-loading loop of `core_dagster_event_sequence_for_step`:
Nothing-typed inputs are skipped entirely; otherwise the input's asset
claims are collected and its load sequence is iterated. -/
def inputsPhase (ctx : StepContextM) :
    List StepInputM → List (String × Val) → List AssetPartitions → InputPhaseRes
  | [], inputsAcc, assets => ⟨[], inputsAcc, assets, none⟩
  | si :: rest, inputsAcc, assets =>
    if si.dagster_type.kind = TypeKind.nothingKind then
      inputsPhase ctx rest inputsAcc assets
    else
      let assets1 := assets ++ si.asset_claims
      let r := loadItemsGo si.name si.load_items inputsAcc
      match r.err with
      | some e => ⟨r.events, r.inputs, assets1, some e⟩
      | none =>
        let r2 := inputsPhase ctx rest r.inputs assets1
        ⟨r.events ++ r2.events, r2.inputs, r2.input_assets, r2.err⟩

/-- The input type-check loop of `core_dagster_event_sequence_for_step`. -/
def inputChecksGo (ctx : StepContextM) : List (String × Val) → List DagsterEventM × Option Err
  | [] => ([], none)
  | (n, v) :: rest =>
    let r := type_checked_event_sequence_for_input ctx n v
    match r.2 with
    | some e => (r.1, some e)
    | none =>
      let r2 := inputChecksGo ctx rest
      (r.1 ++ r2.1, r2.2)

/-- Result of the per-event dispatch loop. -/
structure DispatchRes where
  events : List DagsterEventM
  captures : List (StepOutputHandle × Val)
  err : Option Err

/-- The per-event dispatch loop of `core_dagster_event_sequence_for_step`:
outputs go through type-check / store / type-materializations; manually
yielded materializations are forwarded tagged with the deduplicated input
asset list; expectation results are forwarded; anything else hits
`check.failed`. -/
def dispatchGo (ctx : StepContextM) (input_assets : List AssetPartitions) :
    List SolidOutputUnionM → DispatchRes
  | [] => ⟨[], [], none⟩
  | .out o :: rest =>
    let r := type_check_and_store_output ctx o.toLike input_assets
    (match r.2.2 with
    | some e => ⟨r.1, r.2.1, some e⟩
    | none =>
      let r2 := dispatchGo ctx input_assets rest
      ⟨r.1 ++ r2.events, r.2.1 ++ r2.captures, r2.err⟩)
  | .dynOut d :: rest =>
    let r := type_check_and_store_output ctx d.toLike input_assets
    (match r.2.2 with
    | some e => ⟨r.1, r.2.1, some e⟩
    | none =>
      let r2 := dispatchGo ctx input_assets rest
      ⟨r.1 ++ r2.events, r.2.1 ++ r2.captures, r2.err⟩)
  | .matEvt m :: rest =>
    let r2 := dispatchGo ctx input_assets rest
    ⟨DagsterEventM.stepMaterialization m (some input_assets) :: r2.events, r2.captures, r2.err⟩
  | .expectation x :: rest =>
    let r2 := dispatchGo ctx input_assets rest
    ⟨DagsterEventM.stepExpectationResult x :: r2.events, r2.captures, r2.err⟩
  | .unexpected _ :: _ =>
    ⟨[], [], some (.checkError "Unexpected event, should have been caught earlier")⟩

/-- The start / restarted event (`prior_attempt_count > 0` selects the
restarted event carrying the attempt count). -/
def startEventFor (prior_attempt_count : Nat) : DagsterEventM :=
  if prior_attempt_count > 0 then .stepRestarted prior_attempt_count else .stepStart

/-- Result of a whole step run. -/
structure CoreRes where
  events : List DagsterEventM
  captures : List (StepOutputHandle × Val)
  err : Option Err

/-- `core_dagster_event_sequence_for_step`: start/restart, load inputs,
type-check inputs, dedup the collected input asset claims once, run the
compute sequence through the classifier and dispatch each event, then emit
the terminal success event.  Exceptions propagate to the caller without a
terminal event; events already yielded are preserved.  (The wall-clock
duration of the timer block is abstracted to 0.) -/
def core_dagster_event_sequence_for_step (ctx : StepContextM) (prior_attempt_count : Nat)
    (gen : ComputeGen) : CoreRes :=
  let startEvt := startEventFor prior_attempt_count
  let ip := inputsPhase ctx ctx.step_inputs [] []
  match ip.err with
  | some e => ⟨startEvt :: ip.events, [], some e⟩
  | none =>
    let ic := inputChecksGo ctx ip.inputs
    match ic.2 with
    | some e => ⟨startEvt :: (ip.events ++ ic.1), [], some e⟩
    | none =>
      let input_assets := dedup_asset_partitions ip.input_assets
      let us := user_event_sequence_for_step_compute_fn ctx gen
      let cl := classifierGo ctx us.1 us.2 [] []
      let d := dispatchGo ctx input_assets cl.1
      match d.err with
      | some e => ⟨startEvt :: (ip.events ++ ic.1 ++ d.events), d.captures, some e⟩
      | none =>
        match cl.2 with
        | some e => ⟨startEvt :: (ip.events ++ ic.1 ++ d.events), d.captures, some e⟩
        | none =>
          ⟨startEvt :: (ip.events ++ ic.1 ++ d.events ++ [DagsterEventM.stepSuccess 0]),
            d.captures, none⟩

/-! ## Event-kind predicates and claim-side properties -/

def isStartLike : DagsterEventM → Bool
  | .stepStart => true
  | .stepRestarted _ => true
  | _ => false

def isSuccessEvt : DagsterEventM → Bool
  | .stepSuccess _ => true
  | _ => false

def isMaterializationEvt : DagsterEventM → Bool
  | .stepMaterialization _ _ => true
  | _ => false

def isHandledOutputEvt : DagsterEventM → Bool
  | .handledOutput _ _ _ _ => true
  | _ => false

def isStepOutputEvt : DagsterEventM → Bool
  | .stepOutputEvt _ _ _ _ _ _ => true
  | _ => false

/-- C2 condition: an output's name is not declared on the step. -/
def undeclaredOutputName (decls : List OutputDefM) (items : List SolidOutputUnionM) : Prop :=
  ∃ x ∈ items, ∃ n, outName? x = some n ∧ declOf decls n = none

/-- C2 condition: a static output name is produced twice (two plain output
values with the same statically-declared name). -/
def staticProducedTwice (decls : List OutputDefM) (items : List SolidOutputUnionM) : Prop :=
  ∃ i j : Fin items.length, i < j ∧ isPlainOut (items.get i) = true ∧
    isPlainOut (items.get j) = true ∧
    outName? (items.get i) = outName? (items.get j) ∧
    (∃ n d, outName? (items.get i) = some n ∧ declOf decls n = some d ∧ d.is_dynamic = false)

/-- C2 condition: a plain value for a dynamically-declared output or a
dynamic value for a statically-declared output. -/
def kindMismatch (decls : List OutputDefM) (items : List SolidOutputUnionM) : Prop :=
  ∃ x ∈ items, ∃ n d, outName? x = some n ∧ declOf decls n = some d ∧
    ((isPlainOut x = true ∧ d.is_dynamic = true) ∨ (isDynOut x = true ∧ d.is_dynamic = false))

/-- C2 condition: two dynamic values for the same output name with the same
mapping key. -/
def duplicateMappingKey (items : List SolidOutputUnionM) : Prop :=
  ∃ i j : Fin items.length, i < j ∧ isDynOut (items.get i) = true ∧
    isDynOut (items.get j) = true ∧
    outName? (items.get i) = outName? (items.get j) ∧
    dynKey? (items.get i) = dynKey? (items.get j)

/-- C2 condition: a required non-Nothing-typed declared output is never
produced. -/
def missingRequiredOutput (decls : List OutputDefM) (items : List SolidOutputUnionM) : Prop :=
  ∃ d ∈ decls, d.optional = false ∧ d.dagster_type.kind ≠ TypeKind.nothingKind ∧
    ∀ x ∈ items, outName? x ≠ some d.name

/-- The first four C2 conditions (those raised from inside the loop). -/
def loopViolation (decls : List OutputDefM) (items : List SolidOutputUnionM) : Prop :=
  undeclaredOutputName decls items ∨ staticProducedTwice decls items ∨
    kindMismatch decls items ∨ duplicateMappingKey items

/-- C2's failure conditions, stated declaratively from the spec's words
(§4.2): undeclared output name; static output name produced twice; shape /
declared-kind mismatch; duplicate mapping key on one dynamic output name;
required non-Nothing output never produced. -/
def OutputViolation (decls : List OutputDefM) (items : List SolidOutputUnionM) : Prop :=
  loopViolation decls items ∨ missingRequiredOutput decls items

/-- Ordered-pair relation used to show the classifier's bookkeeping rules
out repeated static outputs and repeated mapping keys. -/
def pairR (x y : SolidOutputUnionM) : Prop :=
  ∀ n, outName? x = some n → outName? y = some n →
    isPlainOut y = false ∧
    (isDynOut x = true → isDynOut y = true → dynKey? x ≠ dynKey? y)

/-! ## Concrete collaborators for running the model on closed inputs -/

/-- A pluggable type whose checker always succeeds. -/
def okType : DagsterTypeM :=
  ⟨TypeKind.normalKind, "Any", fun _ => .wellFormed ⟨true, none, []⟩, fun _ _ => .returns []⟩

/-- The Nothing sentinel type with an always-passing checker. -/
def nothingTypeM : DagsterTypeM :=
  ⟨TypeKind.nothingKind, "Nothing", fun _ => .wellFormed ⟨true, none, []⟩, fun _ _ => .returns []⟩

/-- A pluggable type whose checker always fails with a description and one
metadata entry. -/
def failType : DagsterTypeM :=
  ⟨TypeKind.normalKind, "Int", fun _ => .wellFormed ⟨false, some "not an Int", ["tc-meta"]⟩,
    fun _ _ => .returns []⟩

/-- A pluggable type whose checker returns a malformed (non-TypeCheck)
value. -/
def malformedType : DagsterTypeM :=
  ⟨TypeKind.normalKind, "Int", fun _ => .malformed "str", fun _ _ => .returns []⟩

/-- An IO manager that stores silently: returns `None`, claims no asset. -/
def quietManager : IOManagerM := ⟨fun _ => .returnsNone, none, false⟩

/-- A minimal step context over the given output declarations: no inputs,
no capture sink, no memoization, no materializer config. -/
def simpleCtx (outs : List OutputDefM) : StepContextM :=
  ⟨"step1", ["solid1"], "solid1", "solid1_def", [], outs, false, false,
    fun _ => none, fun _ => none⟩

/-- A required static output of a normal type. -/
def resOutDef : OutputDefM := ⟨"res", false, false, okType, "io_manager", none, quietManager⟩

/-- A required static output of the Nothing sentinel type. -/
def reqNothingOutDef : OutputDefM :=
  ⟨"log", false, false, nothingTypeM, "io_manager", none, quietManager⟩

/-- An OPTIONAL static output of the Nothing sentinel type. -/
def optNothingOutDef : OutputDefM :=
  ⟨"log", false, true, nothingTypeM, "io_manager", none, quietManager⟩

/-- The version attached at the dispatch stage (memoized runs only). -/
def tcsVersion (ctx : StepContextM) (o : OutputLike) : Option String :=
  if ctx.memoized_run then ctx.resolve_version ⟨ctx.step_key, o.output_name, o.mapping_key⟩
  else none

/-- A required static output whose type check always fails. -/
def failResOutDef : OutputDefM :=
  ⟨"res", false, false, failType, "io_manager", none, quietManager⟩

/-- A context with one input and one output, both failing their checks. -/
def failCtx : StepContextM :=
  ⟨"step1", ["solid1"], "solid1", "solid1_def",
    [⟨"x", failType, [], [.value (some 5)]⟩], [failResOutDef], false, false,
    fun _ => none, fun _ => none⟩

/-- A context with an output-capture sink supplied. -/
def captureCtx : StepContextM :=
  ⟨"step1", ["solid1"], "solid1", "solid1_def", [], [failResOutDef], true, false,
    fun _ => none, fun _ => none⟩

/-- An IO manager that also claims an asset target, and whose store call
raises. -/
def bothClaimManager : IOManagerM :=
  ⟨fun _ => .raises (.otherExc "boom"), some ⟨"asset-b", []⟩, false⟩

/-- An output declaration claiming an asset target whose manager also
claims one. -/
def bothClaimOutDef : OutputDefM :=
  ⟨"res", false, false, okType, "io_manager", some ⟨"asset-a", ["p"]⟩, bothClaimManager⟩

/-- A context holding the doubly-claiming output. -/
def bothClaimCtx : StepContextM :=
  ⟨"step1", ["solid1"], "solid1", "solid1_def", [], [bothClaimOutDef], false, false,
    fun _ => none, fun _ => none⟩

/-- An IO manager whose store call raises: a `Failure` signal on value 1, a
`RetryRequested` on value 2, an ordinary exception otherwise. -/
def raisingManager : IOManagerM :=
  ⟨fun v =>
    match v with
    | some 1 => .raises .failure
    | some 2 => .raises .retryRequested
    | _ => .raises (.otherExc "bang"), none, false⟩

def raisingOutDef : OutputDefM :=
  ⟨"res", false, false, okType, "io_manager", none, raisingManager⟩

def raisingCtx : StepContextM := simpleCtx [raisingOutDef]

/-- An IO manager that returns a lazy store result which raises an ordinary
exception when pulled (after the call itself has returned). -/
def lazyPullManager : IOManagerM :=
  ⟨fun _ => .returnsGen [] (some (.otherExc "boom")), none, false⟩

def lazyPullOutDef : OutputDefM :=
  ⟨"res", false, false, okType, "io_manager", none, lazyPullManager⟩

def lazyPullCtx : StepContextM := simpleCtx [lazyPullOutDef]

/-- The asset/partition claims collected from a step's (non-Nothing) inputs
during the input-loading phase. -/
def collectedInputAssets (ctx : StepContextM) : List AssetPartitions :=
  (inputsPhase ctx ctx.step_inputs [] []).input_assets

/-- The properties every event strictly between start/restart and the
terminal success satisfies: it is neither a start-like nor a success event,
and if it is a materialization event its attached input-asset list is
either absent (type-materializer path) or exactly the deduplicated
collected input claims. -/
def midEvtOk (ctx : StepContextM) (e : DagsterEventM) : Prop :=
  isStartLike e = false ∧ isSuccessEvt e = false ∧
    ∀ m iaa, e = DagsterEventM.stepMaterialization m iaa →
      iaa = none ∨ iaa = some (dedup_asset_partitions (collectedInputAssets ctx))

/-- A pluggable type whose materializer emits one materialization. -/
def matzType : DagsterTypeM :=
  ⟨TypeKind.normalKind, "Any", fun _ => .wellFormed ⟨true, none, []⟩,
    fun _ _ => .returns [.mat ⟨"m-asset", none, []⟩]⟩

/-- An output whose dagster type has the materializer above. -/
def matzOutDef : OutputDefM :=
  ⟨"res", false, false, matzType, "io_manager", none, quietManager⟩

/-- A context with one asset-claiming input and a configured type
materializer spec for output `res`. -/
def matzCtx : StepContextM :=
  ⟨"step1", ["solid1"], "solid1", "solid1_def",
    [⟨"x", okType, [⟨"assetX", []⟩], [.value (some 5)]⟩], [matzOutDef], false, false,
    fun _ => none, fun level => if level = "solid1" then some [("res", 0)] else none⟩

/-- An output whose declaration claims a one-partition asset target. -/
def assetOutDef : OutputDefM :=
  ⟨"res", false, false, okType, "io_manager", some ⟨"a", ["p"]⟩, quietManager⟩

def assetCtx : StepContextM := simpleCtx [assetOutDef]

/-- An IO manager returning a lazy sequence with one plain metadata entry
and one materialization. -/
def c1Manager : IOManagerM :=
  ⟨fun _ => .returnsGen [.metaEntry (.plain "m-b"), .mat ⟨"extra", none, []⟩] none, none, false⟩

/-- An output claiming a two-partition asset target, stored by `c1Manager`. -/
def c1OutDef : OutputDefM :=
  ⟨"res", false, false, okType, "io_manager", some ⟨"a", ["p1", "p2"]⟩, c1Manager⟩

/-- A context with one event-yielding, asset-claiming input and the
two-partition output above. -/
def c1Ctx : StepContextM :=
  ⟨"step1", ["solid1"], "solid1", "solid1_def",
    [⟨"x", okType, [⟨"in-asset", ["q"]⟩], [.evt 7, .value (some 5)]⟩], [c1OutDef],
    false, false, fun _ => none, fun _ => none⟩

/-- The compute generator for the `c1Ctx` run: one output carrying one
partition-targeted metadata entry, clean exhaustion. -/
def c1Gen : ComputeGen := ⟨[.out ⟨"res", some 1, [.partitioned "p1" "m-o"]⟩], none⟩

/-- The output value above in `OutputLike` form. -/
def c1OutLike : OutputLike := ⟨"res", some 1, [.partitioned "p1" "m-o"], none⟩

/-- The routed metadata buckets of the `c1Ctx` store. -/
def c1mm : List (Option String × List EMeta) :=
  [(some "p1", ["m-o", "m-b"]), (some "p2", ["m-b"])]

theorem mem_insertIfAbsent (ps : List String) (p q : String) :
    q ∈ insertIfAbsent ps p ↔ q ∈ ps ∨ q = p := by
  unfold insertIfAbsent
  split
  · constructor
    · exact fun h => Or.inl h
    · rintro (h | rfl)
      · exact h
      · assumption
  · simp [List.mem_append, or_comm]

theorem nodup_insertIfAbsent (ps : List String) (p : String) (h : ps.Nodup) :
    (insertIfAbsent ps p).Nodup := by
  unfold insertIfAbsent
  split
  · exact h
  · simpa [List.nodup_append] using ⟨h, by assumption⟩

theorem mem_foldl_insertIfAbsent (ps : List String) (acc : List String) (q : String) :
    q ∈ ps.foldl insertIfAbsent acc ↔ q ∈ acc ∨ q ∈ ps := by
  induction ps generalizing acc with
  | nil => simp
  | cons p rest ih =>
    rw [List.foldl_cons, ih, mem_insertIfAbsent]
    simp only [List.mem_cons]
    tauto

theorem nodup_foldl_insertIfAbsent (ps : List String) (acc : List String) (h : acc.Nodup) :
    (ps.foldl insertIfAbsent acc).Nodup := by
  induction ps generalizing acc with
  | nil => simpa
  | cons p rest ih => exact ih _ (nodup_insertIfAbsent _ _ h)

theorem foldl_insertIfAbsent_of_disjoint (ps : List String) :
    ∀ acc, ps.Nodup → (∀ p ∈ ps, p ∉ acc) → ps.foldl insertIfAbsent acc = acc ++ ps := by
  induction ps with
  | nil => intro acc _ _; simp
  | cons p rest ih =>
    intro acc hnd hdis
    rw [List.foldl_cons]
    have hp : p ∉ acc := hdis p (by simp)
    have h1 : insertIfAbsent acc p = acc ++ [p] := by simp [insertIfAbsent, hp]
    have h2 : rest.foldl insertIfAbsent (acc ++ [p]) = (acc ++ [p]) ++ rest := by
      refine ih (acc ++ [p]) hnd.of_cons ?_
      intro q hq hmem
      rcases List.mem_append.mp hmem with h | h
      · exact hdis q (by simp [hq]) h
      · rw [List.mem_singleton.mp h] at hq
        exact (List.nodup_cons.mp hnd).1 hq
    rw [h1, h2, List.append_assoc]
    rfl

theorem keysOf_updateAssoc (m : List (String × List String)) (k : String) (f : List String → List String) :
    keysOf (updateAssoc m k f) = mergeKey (keysOf m) k := by
  induction m with
  | nil => simp [updateAssoc, keysOf, mergeKey]
  | cons kv rest ih =>
    by_cases h : kv.1 = k
    · simp [updateAssoc, h, keysOf, mergeKey]
    · simp only [updateAssoc, if_neg h, keysOf, List.map_cons]
      have ih' : List.map Prod.fst (updateAssoc rest k f) = mergeKey (List.map Prod.fst rest) k := ih
      rw [ih']
      simp only [mergeKey, List.mem_cons]
      by_cases hm : k ∈ List.map Prod.fst rest
      · simp [hm, Ne.symm h]
      · simp [hm, Ne.symm h]

theorem assocVal_updateAssoc_self (m : List (String × List String)) (k : String) (f : List String → List String) :
    assocVal (updateAssoc m k f) k = f (assocVal m k) := by
  induction m with
  | nil => simp [updateAssoc, assocVal]
  | cons kv rest ih =>
    by_cases h : kv.1 = k
    · simp [updateAssoc, h, assocVal]
    · simp [updateAssoc, h, assocVal, ih]

theorem assocVal_updateAssoc_ne (m : List (String × List String)) (k k' : String)
    (f : List String → List String) (h : k' ≠ k) :
    assocVal (updateAssoc m k f) k' = assocVal m k' := by
  induction m with
  | nil => simp [updateAssoc, assocVal, Ne.symm h]
  | cons kv rest ih =>
    by_cases hk : kv.1 = k
    · simp [updateAssoc, hk, assocVal, Ne.symm h]
    · simp [updateAssoc, hk, assocVal, ih]

theorem updateAssoc_of_not_mem (m : List (String × List String)) (k : String)
    (f : List String → List String) (h : k ∉ keysOf m) :
    updateAssoc m k f = m ++ [(k, f [])] := by
  induction m with
  | nil => simp [updateAssoc]
  | cons kv rest ih =>
    simp only [keysOf, List.map_cons, List.mem_cons] at h
    push_neg at h
    simp [updateAssoc, Ne.symm h.1, ih h.2]

theorem dedupStep_eq_partFold (acc : List (String × List String)) (ap : AssetPartitions) :
    dedupStep acc ap =
      partFold (if ap.partitions.isEmpty then updateAssoc acc ap.asset_key id else acc)
        ap.asset_key ap.partitions := rfl

theorem assocVal_partFold_self (ps : List String) :
    ∀ acc k, assocVal (partFold acc k ps) k = ps.foldl insertIfAbsent (assocVal acc k) := by
  induction ps with
  | nil => intro acc k; rfl
  | cons p rest ih =>
    intro acc k
    show assocVal (partFold (updateAssoc acc k (fun l => insertIfAbsent l p)) k rest) k = _
    rw [ih, assocVal_updateAssoc_self]
    rfl

theorem assocVal_partFold_ne (ps : List String) :
    ∀ acc k k', k' ≠ k → assocVal (partFold acc k ps) k' = assocVal acc k' := by
  induction ps with
  | nil => intro acc k k' _; rfl
  | cons p rest ih =>
    intro acc k k' h
    show assocVal (partFold (updateAssoc acc k (fun l => insertIfAbsent l p)) k rest) k' = _
    rw [ih _ _ _ h, assocVal_updateAssoc_ne _ _ _ _ h]

theorem mergeKey_idem (ks : List String) (k : String) :
    mergeKey (mergeKey ks k) k = mergeKey ks k := by
  unfold mergeKey
  by_cases h : k ∈ ks
  · simp [h]
  · simp [h]

theorem keysOf_partFold (ps : List String) :
    ∀ acc k, keysOf (partFold acc k ps) =
      if ps.isEmpty then keysOf acc else mergeKey (keysOf acc) k := by
  induction ps with
  | nil => intro acc k; rfl
  | cons p rest ih =>
    intro acc k
    show keysOf (partFold (updateAssoc acc k (fun l => insertIfAbsent l p)) k rest) = _
    rw [ih]
    by_cases hrest : rest.isEmpty
    · simp [hrest, keysOf_updateAssoc]
    · simp only [hrest, if_false, List.isEmpty_cons, Bool.false_eq_true]
      rw [keysOf_updateAssoc, mergeKey_idem]

theorem assocVal_dedupStep_self (acc : List (String × List String)) (ap : AssetPartitions) :
    assocVal (dedupStep acc ap) ap.asset_key =
      ap.partitions.foldl insertIfAbsent (assocVal acc ap.asset_key) := by
  rw [dedupStep_eq_partFold, assocVal_partFold_self]
  by_cases h : ap.partitions.isEmpty
  · simp [h, assocVal_updateAssoc_self]
  · simp [h]

theorem assocVal_dedupStep_ne (acc : List (String × List String)) (ap : AssetPartitions)
    (k' : String) (h : k' ≠ ap.asset_key) :
    assocVal (dedupStep acc ap) k' = assocVal acc k' := by
  rw [dedupStep_eq_partFold, assocVal_partFold_ne _ _ _ _ h]
  by_cases he : ap.partitions.isEmpty
  · simp [he, assocVal_updateAssoc_ne _ _ _ _ h]
  · simp [he]

theorem keysOf_dedupStep (acc : List (String × List String)) (ap : AssetPartitions) :
    keysOf (dedupStep acc ap) = mergeKey (keysOf acc) ap.asset_key := by
  rw [dedupStep_eq_partFold, keysOf_partFold]
  by_cases h : ap.partitions.isEmpty
  · simp [h, keysOf_updateAssoc]
  · simp [h]

theorem mem_mergeKey (ks : List String) (k q : String) :
    q ∈ mergeKey ks k ↔ q ∈ ks ∨ q = k := by
  unfold mergeKey
  split
  · constructor
    · exact fun h => Or.inl h
    · rintro (h | rfl) <;> assumption
  · simp [List.mem_append]

theorem nodup_mergeKey (ks : List String) (k : String) (h : ks.Nodup) :
    (mergeKey ks k).Nodup := by
  unfold mergeKey
  split
  · exact h
  · simpa [List.nodup_append] using ⟨h, by assumption⟩

theorem unionMem_cons (ap : AssetPartitions) (rest : List AssetPartitions) (k p : String) :
    unionMem (ap :: rest) k p ↔ (ap.asset_key = k ∧ p ∈ ap.partitions) ∨ unionMem rest k p := by
  simp only [unionMem, List.mem_cons]
  constructor
  · rintro ⟨a, (rfl | ha), hk, hp⟩
    · exact Or.inl ⟨hk, hp⟩
    · exact Or.inr ⟨a, ha, hk, hp⟩
  · rintro (⟨hk, hp⟩ | ⟨a, ha, hk, hp⟩)
    · exact ⟨ap, Or.inl rfl, hk, hp⟩
    · exact ⟨a, Or.inr ha, hk, hp⟩

theorem keyMem_cons (ap : AssetPartitions) (rest : List AssetPartitions) (k : String) :
    keyMem (ap :: rest) k ↔ ap.asset_key = k ∨ keyMem rest k := by
  simp only [keyMem, List.mem_cons]
  constructor
  · rintro ⟨a, (rfl | ha), hk⟩
    · exact Or.inl hk
    · exact Or.inr ⟨a, ha, hk⟩
  · rintro (hk | ⟨a, ha, hk⟩)
    · exact ⟨ap, Or.inl rfl, hk⟩
    · exact ⟨a, Or.inr ha, hk⟩

theorem assocVal_foldl_dedupStep (aps : List AssetPartitions) :
    ∀ acc k p, p ∈ assocVal (aps.foldl dedupStep acc) k ↔ p ∈ assocVal acc k ∨ unionMem aps k p := by
  induction aps with
  | nil => intro acc k p; simp [unionMem]
  | cons ap rest ih =>
    intro acc k p
    rw [List.foldl_cons, ih, unionMem_cons]
    by_cases hk : k = ap.asset_key
    · subst hk
      rw [assocVal_dedupStep_self, mem_foldl_insertIfAbsent]
      tauto
    · rw [assocVal_dedupStep_ne _ _ _ hk]
      have : ¬(ap.asset_key = k ∧ p ∈ ap.partitions) := fun hc => hk hc.1.symm
      tauto

theorem keys_foldl_dedupStep (aps : List AssetPartitions) :
    ∀ acc k, k ∈ keysOf (aps.foldl dedupStep acc) ↔ k ∈ keysOf acc ∨ keyMem aps k := by
  induction aps with
  | nil => intro acc k; simp [keyMem]
  | cons ap rest ih =>
    intro acc k
    rw [List.foldl_cons, ih, keysOf_dedupStep, mem_mergeKey, keyMem_cons]
    constructor
    · rintro ((h | h) | h)
      · exact Or.inl h
      · exact Or.inr (Or.inl h.symm)
      · exact Or.inr (Or.inr h)
    · rintro (h | (h | h))
      · exact Or.inl (Or.inl h)
      · exact Or.inl (Or.inr h.symm)
      · exact Or.inr h

theorem nodup_keys_foldl_dedupStep (aps : List AssetPartitions) :
    ∀ acc, (keysOf acc).Nodup → (keysOf (aps.foldl dedupStep acc)).Nodup := by
  induction aps with
  | nil => intro acc h; simpa
  | cons ap rest ih =>
    intro acc h
    rw [List.foldl_cons]
    exact ih _ (by rw [keysOf_dedupStep]; exact nodup_mergeKey _ _ h)

theorem values_updateAssoc (m : List (String × List String)) (k : String)
    (f : List String → List String) (h : ∀ kv ∈ m, kv.2.Nodup)
    (hf : ∀ l, l.Nodup → (f l).Nodup) :
    ∀ kv ∈ updateAssoc m k f, kv.2.Nodup := by
  induction m with
  | nil =>
    intro kv hkv
    simp only [updateAssoc, List.mem_singleton] at hkv
    subst hkv
    exact hf [] List.nodup_nil
  | cons e rest ih =>
    intro kv hkv
    by_cases he : e.1 = k
    · simp only [updateAssoc, if_pos he, List.mem_cons] at hkv
      rcases hkv with rfl | hkv
      · exact hf e.2 (h e (by simp))
      · exact h kv (by simp [hkv])
    · simp only [updateAssoc, if_neg he, List.mem_cons] at hkv
      rcases hkv with rfl | hkv
      · exact h kv (by simp)
      · exact ih (fun x hx => h x (by simp [hx])) kv hkv

theorem values_partFold (ps : List String) :
    ∀ acc k, (∀ kv ∈ acc, kv.2.Nodup) → ∀ kv ∈ partFold acc k ps, kv.2.Nodup := by
  induction ps with
  | nil => intro acc k h; exact h
  | cons p rest ih =>
    intro acc k h
    exact ih _ _ (values_updateAssoc acc k _ h (fun l hl => nodup_insertIfAbsent l p hl))

theorem values_dedupStep (acc : List (String × List String)) (ap : AssetPartitions)
    (h : ∀ kv ∈ acc, kv.2.Nodup) : ∀ kv ∈ dedupStep acc ap, kv.2.Nodup := by
  rw [dedupStep_eq_partFold]
  refine values_partFold _ _ _ ?_
  by_cases he : ap.partitions.isEmpty
  · simp only [he, if_true]
    exact values_updateAssoc acc ap.asset_key id h (fun l hl => hl)
  · simpa [he] using h

theorem values_foldl_dedupStep (aps : List AssetPartitions) :
    ∀ acc, (∀ kv ∈ acc, kv.2.Nodup) → ∀ kv ∈ aps.foldl dedupStep acc, kv.2.Nodup := by
  induction aps with
  | nil => intro acc h; exact h
  | cons ap rest ih => intro acc h; exact ih _ (values_dedupStep acc ap h)

theorem updateAssoc_append_last (m : List (String × List String)) (k : String)
    (v : List String) (f : List String → List String) (h : k ∉ keysOf m) :
    updateAssoc (m ++ [(k, v)]) k f = m ++ [(k, f v)] := by
  induction m with
  | nil => simp [updateAssoc]
  | cons kv rest ih =>
    simp only [keysOf, List.map_cons, List.mem_cons] at h
    push_neg at h
    simp only [List.cons_append, updateAssoc, if_neg (Ne.symm h.1)]
    exact congrArg (List.cons kv) (ih h.2)

theorem partFold_append_last (ps : List String) :
    ∀ m k v, k ∉ keysOf m →
      partFold (m ++ [(k, v)]) k ps = m ++ [(k, ps.foldl insertIfAbsent v)] := by
  induction ps with
  | nil => intro m k v _; rfl
  | cons p rest ih =>
    intro m k v h
    show partFold (updateAssoc (m ++ [(k, v)]) k (fun l => insertIfAbsent l p)) k rest = _
    rw [updateAssoc_append_last m k v _ h, ih m k _ h]
    rfl

theorem dedupStep_of_fresh (acc : List (String × List String)) (k : String) (ps : List String)
    (h : k ∉ keysOf acc) :
    dedupStep acc ⟨k, ps⟩ = acc ++ [(k, ps.foldl insertIfAbsent [])] := by
  cases ps with
  | nil =>
    show partFold (updateAssoc acc k id) k [] = _
    rw [updateAssoc_of_not_mem acc k id h]
    rfl
  | cons p rest =>
    show partFold acc k (p :: rest) = _
    show partFold (updateAssoc acc k (fun l => insertIfAbsent l p)) k rest = _
    rw [updateAssoc_of_not_mem acc k _ h, partFold_append_last rest acc k _ h]
    rfl

theorem foldl_dedupStep_of_canonical (m : List (String × List String)) :
    ∀ acc, ((acc ++ m).map Prod.fst).Nodup → (∀ kv ∈ m, kv.2.Nodup) →
      (m.map (fun kv => AssetPartitions.mk kv.1 kv.2)).foldl dedupStep acc = acc ++ m := by
  induction m with
  | nil => intro acc _ _; simp
  | cons kv rest ih =>
    intro acc hnd hval
    rw [List.map_cons, List.foldl_cons]
    have hfresh : kv.1 ∉ keysOf acc := by
      intro hmem
      have : ¬ ((acc ++ kv :: rest).map Prod.fst).Nodup := by
        rw [List.map_append, List.map_cons]
        rw [List.nodup_append]
        intro hc
        exact hc.2.2 hmem (by simp)
      exact this hnd
    have hkv : kv.2.Nodup := hval kv (by simp)
    have hstep : dedupStep acc ⟨kv.1, kv.2⟩ = acc ++ [(kv.1, kv.2)] := by
      rw [dedupStep_of_fresh acc kv.1 kv.2 hfresh,
        foldl_insertIfAbsent_of_disjoint kv.2 [] hkv (by simp)]
      simp
    rw [hstep]
    have hrearr : (acc ++ [(kv.1, kv.2)]) ++ rest = acc ++ kv :: rest := by simp
    have := ih (acc ++ [(kv.1, kv.2)]) (by rw [hrearr]; exact hnd)
      (fun x hx => hval x (by simp [hx]))
    rw [this, hrearr]

theorem partitionsFor_map_mk (m : List (String × List String)) (k : String) :
    partitionsFor (m.map (fun kv => AssetPartitions.mk kv.1 kv.2)) k = assocVal m k := by
  induction m with
  | nil => rfl
  | cons kv rest ih =>
    by_cases h : kv.1 = k
    · simp [partitionsFor, assocVal, h]
    · simp [partitionsFor, assocVal, h, ih]

theorem keyMem_map_mk (m : List (String × List String)) (k : String) :
    keyMem (m.map (fun kv => AssetPartitions.mk kv.1 kv.2)) k ↔ k ∈ keysOf m := by
  simp only [keyMem, keysOf, List.mem_map]
  constructor
  · rintro ⟨a, ⟨kv, hkv, rfl⟩, hk⟩
    exact ⟨kv, hkv, hk⟩
  · rintro ⟨kv, hkv, hk⟩
    exact ⟨⟨kv.1, kv.2⟩, ⟨kv, hkv, rfl⟩, hk⟩

theorem mem_partitionsFor_dedup (X : List AssetPartitions) (k p : String) :
    p ∈ partitionsFor (dedup_asset_partitions X) k ↔ unionMem X k p := by
  unfold dedup_asset_partitions
  rw [partitionsFor_map_mk, assocVal_foldl_dedupStep]
  show p ∈ assocVal [] k ∨ _ ↔ _
  simp [assocVal]

theorem keyMem_dedup (X : List AssetPartitions) (k : String) :
    keyMem (dedup_asset_partitions X) k ↔ keyMem X k := by
  unfold dedup_asset_partitions
  rw [keyMem_map_mk, keys_foldl_dedupStep]
  show k ∈ keysOf [] ∨ _ ↔ _
  simp [keysOf]

theorem dedup_idempotent (X : List AssetPartitions) :
    dedup_asset_partitions (dedup_asset_partitions X) = dedup_asset_partitions X := by
  unfold dedup_asset_partitions
  have hnd : (keysOf (X.foldl dedupStep [])).Nodup :=
    nodup_keys_foldl_dedupStep X [] (by simp [keysOf])
  have hval : ∀ kv ∈ X.foldl dedupStep [], kv.2.Nodup :=
    values_foldl_dedupStep X [] (by simp)
  have := foldl_dedupStep_of_canonical (X.foldl dedupStep []) [] (by simpa [keysOf] using hnd) hval
  rw [show ((X.foldl dedupStep []).map (fun kv => AssetPartitions.mk kv.1 kv.2)) =
    (X.foldl dedupStep []).map (fun kv => (⟨kv.1, kv.2⟩ : AssetPartitions)) from rfl] at this
  rw [this]
  simp

theorem count_keys_dedup (X : List AssetPartitions) (k : String) (h : keyMem X k) :
    ((dedup_asset_partitions X).map AssetPartitions.asset_key).count k = 1 := by
  have hmap : (dedup_asset_partitions X).map AssetPartitions.asset_key = keysOf (X.foldl dedupStep []) := by
    unfold dedup_asset_partitions keysOf
    rw [List.map_map]
    rfl
  have hnd : (keysOf (X.foldl dedupStep [])).Nodup :=
    nodup_keys_foldl_dedupStep X [] (by simp [keysOf])
  have hmem : k ∈ keysOf (X.foldl dedupStep []) := by
    rw [keys_foldl_dedupStep]
    exact Or.inr h
  rw [hmap]
  exact List.count_eq_one_of_mem hnd hmem

/-- C9: `_dedup_asset_partitions` is idempotent (here even literally, with the
model's insertion-ordered sets), its per-asset partition union is invariant
under permutation of the input list, and an asset referenced with an empty
partition set at least once and with explicit partitions elsewhere appears
exactly once in the result, carrying the union of all partitions seen. -/
theorem c9_dedup_asset_partitions_algebra :
    (∀ X, dedup_asset_partitions (dedup_asset_partitions X) = dedup_asset_partitions X)
    ∧ (∀ X Y, X.Perm Y → ∀ k p,
        (p ∈ partitionsFor (dedup_asset_partitions X) k ↔
          p ∈ partitionsFor (dedup_asset_partitions Y) k)
        ∧ (keyMem (dedup_asset_partitions X) k ↔ keyMem (dedup_asset_partitions Y) k))
    ∧ (∀ X k, (∃ ap ∈ X, ap.asset_key = k ∧ ap.partitions = []) →
        (∃ ap ∈ X, ap.asset_key = k ∧ ap.partitions ≠ []) →
        ((dedup_asset_partitions X).map AssetPartitions.asset_key).count k = 1
        ∧ (∀ p, p ∈ partitionsFor (dedup_asset_partitions X) k ↔ unionMem X k p)) := by
  refine ⟨dedup_idempotent, ?_, ?_⟩
  · intro X Y hperm k p
    constructor
    · rw [mem_partitionsFor_dedup, mem_partitionsFor_dedup]
      unfold unionMem
      constructor
      · rintro ⟨ap, hap, hrest⟩; exact ⟨ap, hperm.mem_iff.mp hap, hrest⟩
      · rintro ⟨ap, hap, hrest⟩; exact ⟨ap, hperm.mem_iff.mpr hap, hrest⟩
    · rw [keyMem_dedup, keyMem_dedup]
      unfold keyMem
      constructor
      · rintro ⟨ap, hap, hrest⟩; exact ⟨ap, hperm.mem_iff.mp hap, hrest⟩
      · rintro ⟨ap, hap, hrest⟩; exact ⟨ap, hperm.mem_iff.mpr hap, hrest⟩
  · rintro X k ⟨ap0, hap0, hk0, -⟩ -
    refine ⟨count_keys_dedup X k ⟨ap0, hap0, hk0⟩, fun p => mem_partitionsFor_dedup X k p⟩

/-- Witness for C9 at concrete inputs: a list claiming asset `a` once with no
partitions and once with partitions, and a permutation of it. -/
theorem c9_dedup_asset_partitions_algebra_witness :
    (dedup_asset_partitions (dedup_asset_partitions
        [⟨"a", []⟩, ⟨"a", ["p1"]⟩, ⟨"b", ["q"]⟩]) =
      dedup_asset_partitions [⟨"a", []⟩, ⟨"a", ["p1"]⟩, ⟨"b", ["q"]⟩])
    ∧ ("p1" ∈ partitionsFor (dedup_asset_partitions [⟨"a", []⟩, ⟨"a", ["p1"]⟩, ⟨"b", ["q"]⟩]) "a" ↔
        "p1" ∈ partitionsFor (dedup_asset_partitions [⟨"b", ["q"]⟩, ⟨"a", ["p1"]⟩, ⟨"a", []⟩]) "a")
    ∧ ((dedup_asset_partitions [⟨"a", []⟩, ⟨"a", ["p1"]⟩, ⟨"b", ["q"]⟩]).map
        AssetPartitions.asset_key).count "a" = 1 := by
  refine ⟨c9_dedup_asset_partitions_algebra.1 _, ?_, ?_⟩
  · exact (c9_dedup_asset_partitions_algebra.2.1 _ _ (by decide) "a" "p1").1
  · exact (c9_dedup_asset_partitions_algebra.2.2 [⟨"a", []⟩, ⟨"a", ["p1"]⟩, ⟨"b", ["q"]⟩] "a"
      ⟨⟨"a", []⟩, by simp, rfl, rfl⟩ ⟨⟨"a", ["p1"]⟩, by simp, rfl, by simp⟩).1

/-! ## Classifier lemmas -/

theorem classifier_out_success (ctx : StepContextM) (o : OutputV) (rest : List SolidOutputUnionM)
    (te : Option Err) (seen : List String) (keys : List (String × String))
    (h : (classifierGo ctx (.out o :: rest) te seen keys).2 = none) :
    ∃ od, declOf ctx.step_outputs o.output_name = some od ∧ od.is_dynamic = false ∧
      o.output_name ∉ seen ∧
      (classifierGo ctx rest te (seen ++ [o.output_name]) keys).2 = none ∧
      (classifierGo ctx (.out o :: rest) te seen keys).1 =
        SolidOutputUnionM.out o :: (classifierGo ctx rest te (seen ++ [o.output_name]) keys).1 := by
  cases hd : declOf ctx.step_outputs o.output_name with
  | none => simp [classifierGo, hd] at h
  | some od =>
    by_cases hseen : o.output_name ∈ seen
    · simp [classifierGo, hd, hseen] at h
    · by_cases hdyn : od.is_dynamic = true
      · simp [classifierGo, hd, hseen, hdyn] at h
      · refine ⟨od, rfl, by simpa using hdyn, hseen, ?_, ?_⟩
        · simpa [classifierGo, hd, hseen, hdyn] using h
        · simp [classifierGo, hd, hseen, hdyn]

theorem classifier_dyn_success (ctx : StepContextM) (d : DynOutputV) (rest : List SolidOutputUnionM)
    (te : Option Err) (seen : List String) (keys : List (String × String))
    (h : (classifierGo ctx (.dynOut d :: rest) te seen keys).2 = none) :
    ∃ od, declOf ctx.step_outputs d.output_name = some od ∧ od.is_dynamic = true ∧
      (d.output_name, d.mapping_key) ∉ keys ∧
      (classifierGo ctx rest te (seen ++ [d.output_name])
        (keys ++ [(d.output_name, d.mapping_key)])).2 = none ∧
      (classifierGo ctx (.dynOut d :: rest) te seen keys).1 =
        SolidOutputUnionM.dynOut d :: (classifierGo ctx rest te (seen ++ [d.output_name])
          (keys ++ [(d.output_name, d.mapping_key)])).1 := by
  cases hd : declOf ctx.step_outputs d.output_name with
  | none => simp [classifierGo, hd] at h
  | some od =>
    by_cases hdyn : od.is_dynamic = true
    · by_cases hkey : (d.output_name, d.mapping_key) ∈ keys
      · simp [classifierGo, hd, hdyn, hkey] at h
      · refine ⟨od, rfl, hdyn, hkey, ?_, ?_⟩
        · simpa [classifierGo, hd, hdyn, hkey] using h
        · simp [classifierGo, hd, hdyn, hkey]
    · simp [classifierGo, hd, hdyn] at h

theorem classifier_other_step (ctx : StepContextM) (x : SolidOutputUnionM)
    (rest : List SolidOutputUnionM) (te : Option Err) (seen : List String)
    (keys : List (String × String)) (hx : outName? x = none) :
    classifierGo ctx (x :: rest) te seen keys =
      ((x :: (classifierGo ctx rest te seen keys).1), (classifierGo ctx rest te seen keys).2) := by
  cases x with
  | out o => simp [outName?] at hx
  | dynOut d => simp [outName?] at hx
  | matEvt m => rfl
  | expectation r => rfl
  | unexpected t => rfl

theorem epilogue_success_required (ctx : StepContextM) (decls : List OutputDefM) :
    ∀ seen, (epilogueGo ctx seen decls).2 = none →
      ∀ d ∈ decls, d.optional = false → d.dagster_type.kind ≠ TypeKind.nothingKind →
        d.name ∈ seen := by
  induction decls with
  | nil => intro seen _ d hd; simp at hd
  | cons od rest ih =>
    intro seen h d hd hopt hkind
    by_cases hskip : od.name ∈ seen ∨ od.optional = true
    · rcases List.mem_cons.mp hd with rfl | hd2
      · rcases hskip with hs | hs
        · exact hs
        · rw [hopt] at hs; exact absurd hs (by simp)
      · exact ih seen (by simpa [epilogueGo, hskip] using h) d hd2 hopt hkind
    · push_neg at hskip
      by_cases hnk : od.dagster_type.kind = TypeKind.nothingKind
      · have hrec : (epilogueGo ctx seen rest).2 = none := by
          have heq : epilogueGo ctx seen (od :: rest) =
              ((SolidOutputUnionM.out ⟨od.name, none, []⟩ :: (epilogueGo ctx seen rest).1),
                (epilogueGo ctx seen rest).2) := by
            simp [epilogueGo, hskip.1, hskip.2, hnk]
          rw [heq] at h
          exact h
        rcases List.mem_cons.mp hd with rfl | hd2
        · exact absurd hnk hkind
        · exact ih seen hrec d hd2 hopt hkind
      · exfalso
        have : (epilogueGo ctx seen (od :: rest)).2 =
            some (.stepOutputNotFound
              "Core compute did not return an output for non-optional output"
              ctx.step_key od.name) := by
          simp [epilogueGo, hskip.1, hskip.2, hnk]
        rw [this] at h
        exact Option.noConfusion h

theorem epilogue_err_shape (ctx : StepContextM) (decls : List OutputDefM) :
    ∀ seen e, (epilogueGo ctx seen decls).2 = some e →
      ∃ d ∈ decls, d.optional = false ∧ d.dagster_type.kind ≠ TypeKind.nothingKind ∧
        d.name ∉ seen ∧
        e = .stepOutputNotFound
          "Core compute did not return an output for non-optional output"
          ctx.step_key d.name := by
  induction decls with
  | nil => intro seen e h; simp [epilogueGo] at h
  | cons od rest ih =>
    intro seen e h
    by_cases hskip : od.name ∈ seen ∨ od.optional = true
    · rcases ih seen e (by simpa [epilogueGo, hskip] using h) with ⟨d, hd, hrest⟩
      exact ⟨d, by simp [hd], hrest⟩
    · push_neg at hskip
      by_cases hnk : od.dagster_type.kind = TypeKind.nothingKind
      · have heq : (epilogueGo ctx seen (od :: rest)).2 = (epilogueGo ctx seen rest).2 := by
          simp [epilogueGo, hskip.1, hskip.2, hnk]
        rcases ih seen e (heq ▸ h) with ⟨d, hd, hrest⟩
        exact ⟨d, by simp [hd], hrest⟩
      · have heq : (epilogueGo ctx seen (od :: rest)).2 =
            some (.stepOutputNotFound
              "Core compute did not return an output for non-optional output"
              ctx.step_key od.name) := by
          simp [epilogueGo, hskip.1, hskip.2, hnk]
        rw [heq] at h
        refine ⟨od, by simp, ?_, hnk, hskip.1, (Option.some.injEq _ _ ▸ h).symm⟩
        cases hop : od.optional
        · rfl
        · exact absurd hop hskip.2

theorem epilogue_mem_implicit (ctx : StepContextM) (decls : List OutputDefM) :
    ∀ seen, (epilogueGo ctx seen decls).2 = none →
      ∀ d ∈ decls, d.optional = false → d.dagster_type.kind = TypeKind.nothingKind →
        d.name ∉ seen →
        SolidOutputUnionM.out ⟨d.name, none, []⟩ ∈ (epilogueGo ctx seen decls).1 := by
  induction decls with
  | nil => intro seen _ d hd; simp at hd
  | cons od rest ih =>
    intro seen h d hd hopt hkind hseen
    by_cases hskip : od.name ∈ seen ∨ od.optional = true
    · have heq : epilogueGo ctx seen (od :: rest) = epilogueGo ctx seen rest := by
        simp [epilogueGo, hskip]
      rcases List.mem_cons.mp hd with rfl | hd2
      · rcases hskip with hs | hs
        · exact absurd hs hseen
        · rw [hopt] at hs; exact absurd hs (by simp)
      · rw [heq] at h ⊢
        exact ih seen h d hd2 hopt hkind hseen
    · push_neg at hskip
      by_cases hnk : od.dagster_type.kind = TypeKind.nothingKind
      · have heq : epilogueGo ctx seen (od :: rest) =
            ((SolidOutputUnionM.out ⟨od.name, none, []⟩ :: (epilogueGo ctx seen rest).1),
              (epilogueGo ctx seen rest).2) := by
          simp [epilogueGo, hskip.1, hskip.2, hnk]
        rw [heq] at h ⊢
        rcases List.mem_cons.mp hd with rfl | hd2
        · exact List.mem_cons_self _ _
        · exact List.mem_cons_of_mem _ (ih seen h d hd2 hopt hkind hseen)
      · exfalso
        have : (epilogueGo ctx seen (od :: rest)).2 =
            some (.stepOutputNotFound
              "Core compute did not return an output for non-optional output"
              ctx.step_key od.name) := by
          simp [epilogueGo, hskip.1, hskip.2, hnk]
        rw [this] at h
        exact Option.noConfusion h

theorem epilogue_all_out (ctx : StepContextM) (decls : List OutputDefM) :
    ∀ seen, ∀ y ∈ (epilogueGo ctx seen decls).1, ∃ nm, y = SolidOutputUnionM.out ⟨nm, none, []⟩ := by
  induction decls with
  | nil => intro seen y hy; simp [epilogueGo] at hy
  | cons od rest ih =>
    intro seen y hy
    by_cases hskip : od.name ∈ seen ∨ od.optional = true
    · exact ih seen y (by simpa [epilogueGo, hskip] using hy)
    · push_neg at hskip
      by_cases hnk : od.dagster_type.kind = TypeKind.nothingKind
      · have heq : (epilogueGo ctx seen (od :: rest)).1 =
            SolidOutputUnionM.out ⟨od.name, none, []⟩ :: (epilogueGo ctx seen rest).1 := by
          simp [epilogueGo, hskip.1, hskip.2, hnk]
        rw [heq] at hy
        rcases List.mem_cons.mp hy with rfl | hy2
        · exact ⟨od.name, rfl⟩
        · exact ih seen y hy2
      · have heq : (epilogueGo ctx seen (od :: rest)).1 = [] := by
          simp [epilogueGo, hskip.1, hskip.2, hnk]
        rw [heq] at hy
        simp at hy

theorem classifier_success_invariant (ctx : StepContextM) (items : List SolidOutputUnionM) :
    ∀ seen keys, (classifierGo ctx items none seen keys).2 = none →
      ∀ x ∈ items, ∀ n, outName? x = some n →
        ∃ d, declOf ctx.step_outputs n = some d ∧
          (isPlainOut x = true → d.is_dynamic = false ∧ n ∉ seen) ∧
          (isDynOut x = true → d.is_dynamic = true ∧
            ∀ k, dynKey? x = some k → (n, k) ∉ keys) := by
  induction items with
  | nil => intro seen keys _ x hx; simp at hx
  | cons y rest ih =>
    intro seen keys h x hx n hn
    cases y with
    | out o =>
      obtain ⟨od, hd, hdyn, hseen, hrec, -⟩ := classifier_out_success ctx o rest none seen keys h
      rcases List.mem_cons.mp hx with rfl | hx2
      · simp only [outName?, Option.some.injEq] at hn
        subst hn
        refine ⟨od, hd, fun _ => ⟨hdyn, hseen⟩, fun hfalse => absurd hfalse (by simp [isDynOut])⟩
      · obtain ⟨d, hd2, hplain, hdynx⟩ := ih (seen ++ [o.output_name]) keys hrec x hx2 n hn
        refine ⟨d, hd2, ?_, ?_⟩
        · intro hp
          obtain ⟨h1, h2⟩ := hplain hp
          exact ⟨h1, fun hm => h2 (List.mem_append_left _ hm)⟩
        · intro hdx
          obtain ⟨h1, h2⟩ := hdynx hdx
          exact ⟨h1, fun k hk hm => h2 k hk hm⟩
    | dynOut dd =>
      obtain ⟨od, hd, hdyn, hkey, hrec, -⟩ := classifier_dyn_success ctx dd rest none seen keys h
      rcases List.mem_cons.mp hx with rfl | hx2
      · simp only [outName?, Option.some.injEq] at hn
        subst hn
        refine ⟨od, hd, fun hfalse => absurd hfalse (by simp [isPlainOut]), fun _ => ⟨hdyn, ?_⟩⟩
        intro k hk
        simp only [dynKey?, Option.some.injEq] at hk
        subst hk
        exact hkey
      · obtain ⟨d, hd2, hplain, hdynx⟩ :=
          ih (seen ++ [dd.output_name]) (keys ++ [(dd.output_name, dd.mapping_key)]) hrec x hx2 n hn
        refine ⟨d, hd2, ?_, ?_⟩
        · intro hp
          obtain ⟨h1, h2⟩ := hplain hp
          exact ⟨h1, fun hm => h2 (List.mem_append_left _ hm)⟩
        · intro hdx
          obtain ⟨h1, h2⟩ := hdynx hdx
          exact ⟨h1, fun k hk hm => h2 k hk (List.mem_append_left _ hm)⟩
    | matEvt m =>
      rw [classifier_other_step ctx _ rest none seen keys (by rfl)] at h
      rcases List.mem_cons.mp hx with rfl | hx2
      · simp [outName?] at hn
      · exact ih seen keys h x hx2 n hn
    | expectation r =>
      rw [classifier_other_step ctx _ rest none seen keys (by rfl)] at h
      rcases List.mem_cons.mp hx with rfl | hx2
      · simp [outName?] at hn
      · exact ih seen keys h x hx2 n hn
    | unexpected t =>
      rw [classifier_other_step ctx _ rest none seen keys (by rfl)] at h
      rcases List.mem_cons.mp hx with rfl | hx2
      · simp [outName?] at hn
      · exact ih seen keys h x hx2 n hn

theorem classifier_success_pairwise (ctx : StepContextM) (items : List SolidOutputUnionM) :
    ∀ seen keys, (classifierGo ctx items none seen keys).2 = none →
      List.Pairwise pairR items := by
  induction items with
  | nil => intro seen keys _; exact List.Pairwise.nil
  | cons y rest ih =>
    intro seen keys h
    cases y with
    | out o =>
      obtain ⟨od, hd, hdyn, hseen, hrec, -⟩ := classifier_out_success ctx o rest none seen keys h
      refine List.Pairwise.cons ?_ (ih _ _ hrec)
      intro z hz n hn hn2
      simp only [outName?, Option.some.injEq] at hn
      subst hn
      obtain ⟨d, hd2, hplain, -⟩ :=
        classifier_success_invariant ctx rest _ _ hrec z hz _ hn2
      constructor
      · cases hp : isPlainOut z
        · rfl
        · exact absurd (List.mem_append_right seen (by simp)) (hplain hp).2
      · intro hfalse
        exact absurd hfalse (by simp [isDynOut])
    | dynOut dd =>
      obtain ⟨od, hd, hdyn, hkey, hrec, -⟩ := classifier_dyn_success ctx dd rest none seen keys h
      refine List.Pairwise.cons ?_ (ih _ _ hrec)
      intro z hz n hn hn2
      simp only [outName?, Option.some.injEq] at hn
      subst hn
      obtain ⟨d, hd2, hplain, hdynz⟩ :=
        classifier_success_invariant ctx rest _ _ hrec z hz _ hn2
      constructor
      · cases hp : isPlainOut z
        · rfl
        · exact absurd (List.mem_append_right seen (by simp)) (hplain hp).2
      · intro hxdyn hzdyn heq
        obtain ⟨-, h2⟩ := hdynz hzdyn
        cases hkz : dynKey? z with
        | none =>
          cases z with
          | dynOut zz => simp [dynKey?] at hkz
          | _ => simp [isDynOut] at hzdyn
        | some kz =>
          have : (dd.output_name, kz) ∉ keys ++ [(dd.output_name, dd.mapping_key)] := h2 kz hkz
          have hne : kz ≠ dd.mapping_key := by
            intro hc
            exact this (List.mem_append_right _ (by simp [hc]))
          rw [hkz] at heq
          simp only [dynKey?, Option.some.injEq] at heq
          exact hne (by simpa using heq.symm)
    | matEvt m =>
      rw [classifier_other_step ctx _ rest none seen keys (by rfl)] at h
      refine List.Pairwise.cons ?_ (ih _ _ h)
      intro z hz n hn
      simp [outName?] at hn
    | expectation r =>
      rw [classifier_other_step ctx _ rest none seen keys (by rfl)] at h
      refine List.Pairwise.cons ?_ (ih _ _ h)
      intro z hz n hn
      simp [outName?] at hn
    | unexpected t =>
      rw [classifier_other_step ctx _ rest none seen keys (by rfl)] at h
      refine List.Pairwise.cons ?_ (ih _ _ h)
      intro z hz n hn
      simp [outName?] at hn

theorem classifier_success_required (ctx : StepContextM) (items : List SolidOutputUnionM) :
    ∀ seen keys, (classifierGo ctx items none seen keys).2 = none →
      ∀ d ∈ ctx.step_outputs, d.optional = false → d.dagster_type.kind ≠ TypeKind.nothingKind →
        d.name ∈ seen ∨ ∃ x ∈ items, outName? x = some d.name := by
  induction items with
  | nil =>
    intro seen keys h d hd hopt hkind
    exact Or.inl (epilogue_success_required ctx ctx.step_outputs seen h d hd hopt hkind)
  | cons y rest ih =>
    intro seen keys h d hd hopt hkind
    cases y with
    | out o =>
      obtain ⟨od, -, -, -, hrec, -⟩ := classifier_out_success ctx o rest none seen keys h
      rcases ih _ _ hrec d hd hopt hkind with hmem | ⟨x, hx, hn⟩
      · rcases List.mem_append.mp hmem with hmem | hmem
        · exact Or.inl hmem
        · refine Or.inr ⟨SolidOutputUnionM.out o, List.mem_cons_self _ _, ?_⟩
          simp only [List.mem_singleton] at hmem
          simp [outName?, hmem]
      · exact Or.inr ⟨x, List.mem_cons_of_mem _ hx, hn⟩
    | dynOut dd =>
      obtain ⟨od, -, -, -, hrec, -⟩ := classifier_dyn_success ctx dd rest none seen keys h
      rcases ih _ _ hrec d hd hopt hkind with hmem | ⟨x, hx, hn⟩
      · rcases List.mem_append.mp hmem with hmem | hmem
        · exact Or.inl hmem
        · refine Or.inr ⟨SolidOutputUnionM.dynOut dd, List.mem_cons_self _ _, ?_⟩
          simp only [List.mem_singleton] at hmem
          simp [outName?, hmem]
      · exact Or.inr ⟨x, List.mem_cons_of_mem _ hx, hn⟩
    | matEvt m =>
      rw [classifier_other_step ctx _ rest none seen keys (by rfl)] at h
      rcases ih _ _ h d hd hopt hkind with hmem | ⟨x, hx, hn⟩
      · exact Or.inl hmem
      · exact Or.inr ⟨x, List.mem_cons_of_mem _ hx, hn⟩
    | expectation r =>
      rw [classifier_other_step ctx _ rest none seen keys (by rfl)] at h
      rcases ih _ _ h d hd hopt hkind with hmem | ⟨x, hx, hn⟩
      · exact Or.inl hmem
      · exact Or.inr ⟨x, List.mem_cons_of_mem _ hx, hn⟩
    | unexpected t =>
      rw [classifier_other_step ctx _ rest none seen keys (by rfl)] at h
      rcases ih _ _ h d hd hopt hkind with hmem | ⟨x, hx, hn⟩
      · exact Or.inl hmem
      · exact Or.inr ⟨x, List.mem_cons_of_mem _ hx, hn⟩

theorem get_cons_fin_succ (y : SolidOutputUnionM) (l : List SolidOutputUnionM)
    (i : Fin l.length) : (y :: l).get i.succ = l.get i := by
  cases i
  rfl

theorem undeclared_lift (decls : List OutputDefM) (y : SolidOutputUnionM)
    (rest : List SolidOutputUnionM) (h : undeclaredOutputName decls rest) :
    undeclaredOutputName decls (y :: rest) := by
  obtain ⟨x, hx, n, h1, h2⟩ := h
  exact ⟨x, List.mem_cons_of_mem _ hx, n, h1, h2⟩

theorem kindMismatch_lift (decls : List OutputDefM) (y : SolidOutputUnionM)
    (rest : List SolidOutputUnionM) (h : kindMismatch decls rest) :
    kindMismatch decls (y :: rest) := by
  obtain ⟨x, hx, n, d, hrest⟩ := h
  exact ⟨x, List.mem_cons_of_mem _ hx, n, d, hrest⟩

theorem staticProducedTwice_lift (decls : List OutputDefM) (y : SolidOutputUnionM)
    (rest : List SolidOutputUnionM) (h : staticProducedTwice decls rest) :
    staticProducedTwice decls (y :: rest) := by
  obtain ⟨i, j, hij, h1, h2, h3, h4⟩ := h
  refine ⟨i.succ, j.succ, ?_, ?_, ?_, ?_, ?_⟩
  · exact Nat.succ_lt_succ hij
  · rw [get_cons_fin_succ]; exact h1
  · rw [get_cons_fin_succ]; exact h2
  · rw [get_cons_fin_succ, get_cons_fin_succ]; exact h3
  · rw [get_cons_fin_succ]; exact h4

theorem duplicateMappingKey_lift (y : SolidOutputUnionM)
    (rest : List SolidOutputUnionM) (h : duplicateMappingKey rest) :
    duplicateMappingKey (y :: rest) := by
  obtain ⟨i, j, hij, h1, h2, h3, h4⟩ := h
  refine ⟨i.succ, j.succ, ?_, ?_, ?_, ?_, ?_⟩
  · exact Nat.succ_lt_succ hij
  · rw [get_cons_fin_succ]; exact h1
  · rw [get_cons_fin_succ]; exact h2
  · rw [get_cons_fin_succ, get_cons_fin_succ]; exact h3
  · rw [get_cons_fin_succ, get_cons_fin_succ]; exact h4

theorem loopViolation_lift (decls : List OutputDefM) (y : SolidOutputUnionM)
    (rest : List SolidOutputUnionM) (h : loopViolation decls rest) :
    loopViolation decls (y :: rest) := by
  rcases h with h | h | h | h
  · exact Or.inl (undeclared_lift decls y rest h)
  · exact Or.inr (Or.inl (staticProducedTwice_lift decls y rest h))
  · exact Or.inr (Or.inr (Or.inl (kindMismatch_lift decls y rest h)))
  · exact Or.inr (Or.inr (Or.inr (duplicateMappingKey_lift y rest h)))

/-- Build a first-position / later-position violating pair. -/
theorem pair_head_mem (y x : SolidOutputUnionM) (rest : List SolidOutputUnionM)
    (hx : x ∈ rest) :
    ∃ i j : Fin (y :: rest).length, i < j ∧ (y :: rest).get i = y ∧ (y :: rest).get j = x := by
  obtain ⟨jx, hjx⟩ := List.mem_iff_get.mp hx
  refine ⟨⟨0, by simp⟩, jx.succ, Nat.succ_pos _, rfl, ?_⟩
  rw [get_cons_fin_succ]
  exact hjx

theorem classifier_err_violation (ctx : StepContextM) (items : List SolidOutputUnionM) :
    ∀ seen keys e, (classifierGo ctx items none seen keys).2 = some e →
      loopViolation ctx.step_outputs items
      ∨ (∃ x ∈ items, isPlainOut x = true ∧ ∃ n, outName? x = some n ∧ n ∈ seen)
      ∨ (∃ x ∈ items, isDynOut x = true ∧
          ∃ n k, outName? x = some n ∧ dynKey? x = some k ∧ (n, k) ∈ keys)
      ∨ (∃ d ∈ ctx.step_outputs, d.optional = false ∧
          d.dagster_type.kind ≠ TypeKind.nothingKind ∧ d.name ∉ seen ∧
          ∀ x ∈ items, outName? x ≠ some d.name) := by
  induction items with
  | nil =>
    intro seen keys e h
    obtain ⟨d, hd, hopt, hkind, hseen, -⟩ :=
      epilogue_err_shape ctx ctx.step_outputs seen e h
    exact Or.inr (Or.inr (Or.inr ⟨d, hd, hopt, hkind, hseen, by simp⟩))
  | cons y rest ih =>
    intro seen keys e h
    cases y with
    | out o =>
      cases hd : declOf ctx.step_outputs o.output_name with
      | none =>
        exact Or.inl (Or.inl ⟨SolidOutputUnionM.out o, List.mem_cons_self _ _,
          o.output_name, rfl, hd⟩)
      | some od =>
        by_cases hseen : o.output_name ∈ seen
        · exact Or.inr (Or.inl ⟨SolidOutputUnionM.out o, List.mem_cons_self _ _, rfl,
            o.output_name, rfl, hseen⟩)
        · by_cases hdyn : od.is_dynamic = true
          · exact Or.inl (Or.inr (Or.inr (Or.inl ⟨SolidOutputUnionM.out o,
              List.mem_cons_self _ _, o.output_name, od, rfl, hd, Or.inl ⟨rfl, hdyn⟩⟩)))
          · have hrec : (classifierGo ctx rest none (seen ++ [o.output_name]) keys).2 = some e := by
              simpa [classifierGo, hd, hseen, hdyn] using h
            rcases ih _ _ _ hrec with hv | ⟨x, hx, hp, n, hn, hmem⟩ |
              ⟨x, hx, hdx, n, k, hn, hk, hmem⟩ | ⟨d, hdm, hopt, hkind, hsd, hall⟩
            · exact Or.inl (loopViolation_lift _ _ _ hv)
            · rcases List.mem_append.mp hmem with hmem2 | hmem2
              · exact Or.inr (Or.inl ⟨x, List.mem_cons_of_mem _ hx, hp, n, hn, hmem2⟩)
              · simp only [List.mem_singleton] at hmem2
                subst hmem2
                obtain ⟨i, j, hij, hgi, hgj⟩ :=
                  pair_head_mem (SolidOutputUnionM.out o) x rest hx
                refine Or.inl (Or.inr (Or.inl ⟨i, j, hij, ?_, ?_, ?_, ?_⟩))
                · rw [hgi]; rfl
                · rw [hgj]; exact hp
                · rw [hgi, hgj, hn]; rfl
                · rw [hgi]
                  exact ⟨o.output_name, od, rfl, hd, by simpa using hdyn⟩
            · exact Or.inr (Or.inr (Or.inl ⟨x, List.mem_cons_of_mem _ hx, hdx,
                n, k, hn, hk, hmem⟩))
            · have hne : d.name ≠ o.output_name := by
                intro hc
                exact hsd (List.mem_append_right _ (by simp [hc]))
              refine Or.inr (Or.inr (Or.inr ⟨d, hdm, hopt, hkind,
                fun hc => hsd (List.mem_append_left _ hc), ?_⟩))
              intro x hx
              rcases List.mem_cons.mp hx with rfl | hx2
              · simp only [outName?, ne_eq, Option.some.injEq]
                exact fun hc => hne hc.symm
              · exact hall x hx2
    | dynOut dd =>
      cases hd : declOf ctx.step_outputs dd.output_name with
      | none =>
        exact Or.inl (Or.inl ⟨SolidOutputUnionM.dynOut dd, List.mem_cons_self _ _,
          dd.output_name, rfl, hd⟩)
      | some od =>
        by_cases hdyn : od.is_dynamic = true
        · by_cases hkey : (dd.output_name, dd.mapping_key) ∈ keys
          · exact Or.inr (Or.inr (Or.inl ⟨SolidOutputUnionM.dynOut dd,
              List.mem_cons_self _ _, rfl, dd.output_name, dd.mapping_key, rfl, rfl, hkey⟩))
          · have hrec : (classifierGo ctx rest none (seen ++ [dd.output_name])
                (keys ++ [(dd.output_name, dd.mapping_key)])).2 = some e := by
              simpa [classifierGo, hd, hdyn, hkey] using h
            rcases ih _ _ _ hrec with hv | ⟨x, hx, hp, n, hn, hmem⟩ |
              ⟨x, hx, hdx, n, k, hn, hk, hmem⟩ | ⟨d, hdm, hopt, hkind, hsd, hall⟩
            · exact Or.inl (loopViolation_lift _ _ _ hv)
            · rcases List.mem_append.mp hmem with hmem2 | hmem2
              · exact Or.inr (Or.inl ⟨x, List.mem_cons_of_mem _ hx, hp, n, hn, hmem2⟩)
              · simp only [List.mem_singleton] at hmem2
                subst hmem2
                exact Or.inl (Or.inr (Or.inr (Or.inl ⟨x, List.mem_cons_of_mem _ hx,
                  dd.output_name, od, hn, hd, Or.inl ⟨hp, hdyn⟩⟩)))
            · rcases List.mem_append.mp hmem with hmem2 | hmem2
              · exact Or.inr (Or.inr (Or.inl ⟨x, List.mem_cons_of_mem _ hx, hdx,
                  n, k, hn, hk, hmem2⟩))
              · simp only [List.mem_singleton, Prod.mk.injEq] at hmem2
                obtain ⟨rfl, rfl⟩ := hmem2
                obtain ⟨i, j, hij, hgi, hgj⟩ :=
                  pair_head_mem (SolidOutputUnionM.dynOut dd) x rest hx
                refine Or.inl (Or.inr (Or.inr (Or.inr ⟨i, j, hij, ?_, ?_, ?_, ?_⟩)))
                · rw [hgi]; rfl
                · rw [hgj]; exact hdx
                · rw [hgi, hgj, hn]; rfl
                · rw [hgi, hgj, hk]; rfl
            · have hne : d.name ≠ dd.output_name := by
                intro hc
                exact hsd (List.mem_append_right _ (by simp [hc]))
              refine Or.inr (Or.inr (Or.inr ⟨d, hdm, hopt, hkind,
                fun hc => hsd (List.mem_append_left _ hc), ?_⟩))
              intro x hx
              rcases List.mem_cons.mp hx with rfl | hx2
              · simp only [outName?, ne_eq, Option.some.injEq]
                exact fun hc => hne hc.symm
              · exact hall x hx2
        · exact Or.inl (Or.inr (Or.inr (Or.inl ⟨SolidOutputUnionM.dynOut dd,
            List.mem_cons_self _ _, dd.output_name, od, rfl, hd,
            Or.inr ⟨rfl, by simpa using hdyn⟩⟩)))
    | matEvt m =>
      rw [classifier_other_step ctx _ rest none seen keys (by rfl)] at h
      rcases ih _ _ _ h with hv | ⟨x, hx, hrest⟩ | ⟨x, hx, hrest⟩ | ⟨d, hdm, h1, h2, h3, hall⟩
      · exact Or.inl (loopViolation_lift _ _ _ hv)
      · exact Or.inr (Or.inl ⟨x, List.mem_cons_of_mem _ hx, hrest⟩)
      · exact Or.inr (Or.inr (Or.inl ⟨x, List.mem_cons_of_mem _ hx, hrest⟩))
      · refine Or.inr (Or.inr (Or.inr ⟨d, hdm, h1, h2, h3, ?_⟩))
        intro x hx
        rcases List.mem_cons.mp hx with rfl | hx2
        · simp [outName?]
        · exact hall x hx2
    | expectation r =>
      rw [classifier_other_step ctx _ rest none seen keys (by rfl)] at h
      rcases ih _ _ _ h with hv | ⟨x, hx, hrest⟩ | ⟨x, hx, hrest⟩ | ⟨d, hdm, h1, h2, h3, hall⟩
      · exact Or.inl (loopViolation_lift _ _ _ hv)
      · exact Or.inr (Or.inl ⟨x, List.mem_cons_of_mem _ hx, hrest⟩)
      · exact Or.inr (Or.inr (Or.inl ⟨x, List.mem_cons_of_mem _ hx, hrest⟩))
      · refine Or.inr (Or.inr (Or.inr ⟨d, hdm, h1, h2, h3, ?_⟩))
        intro x hx
        rcases List.mem_cons.mp hx with rfl | hx2
        · simp [outName?]
        · exact hall x hx2
    | unexpected t =>
      rw [classifier_other_step ctx _ rest none seen keys (by rfl)] at h
      rcases ih _ _ _ h with hv | ⟨x, hx, hrest⟩ | ⟨x, hx, hrest⟩ | ⟨d, hdm, h1, h2, h3, hall⟩
      · exact Or.inl (loopViolation_lift _ _ _ hv)
      · exact Or.inr (Or.inl ⟨x, List.mem_cons_of_mem _ hx, hrest⟩)
      · exact Or.inr (Or.inr (Or.inl ⟨x, List.mem_cons_of_mem _ hx, hrest⟩))
      · refine Or.inr (Or.inr (Or.inr ⟨d, hdm, h1, h2, h3, ?_⟩))
        intro x hx
        rcases List.mem_cons.mp hx with rfl | hx2
        · simp [outName?]
        · exact hall x hx2

theorem classifier_success_filter (ctx : StepContextM) (items : List SolidOutputUnionM) :
    ∀ seen keys, (classifierGo ctx items none seen keys).2 = none →
      (classifierGo ctx items none seen keys).1.filter (fun x => (outName? x).isNone) =
        items.filter (fun x => (outName? x).isNone) := by
  induction items with
  | nil =>
    intro seen keys h
    show (epilogueGo ctx seen ctx.step_outputs).1.filter _ = _
    have hall := epilogue_all_out ctx ctx.step_outputs seen
    rw [show (List.filter (fun x => (outName? x).isNone) ([] : List SolidOutputUnionM)) = []
      from rfl]
    rw [List.filter_eq_nil_iff]
    intro a ha
    obtain ⟨nm, rfl⟩ := hall a ha
    simp [outName?]
  | cons y rest ih =>
    intro seen keys h
    cases y with
    | out o =>
      obtain ⟨od, -, -, -, hrec, hitems⟩ := classifier_out_success ctx o rest none seen keys h
      rw [hitems]
      simp only [List.filter_cons]
      rw [show ((outName? (SolidOutputUnionM.out o)).isNone : Bool) = false from rfl]
      simp only [Bool.false_eq_true, if_false]
      exact ih _ _ hrec
    | dynOut dd =>
      obtain ⟨od, -, -, -, hrec, hitems⟩ := classifier_dyn_success ctx dd rest none seen keys h
      rw [hitems]
      simp only [List.filter_cons]
      rw [show ((outName? (SolidOutputUnionM.dynOut dd)).isNone : Bool) = false from rfl]
      simp only [Bool.false_eq_true, if_false]
      exact ih _ _ hrec
    | matEvt m =>
      rw [classifier_other_step ctx _ rest none seen keys (by rfl)] at h ⊢
      simp only [List.filter_cons]
      rw [show ((outName? (SolidOutputUnionM.matEvt m)).isNone : Bool) = true from rfl]
      simp only [if_true]
      rw [ih _ _ h]
    | expectation r =>
      rw [classifier_other_step ctx _ rest none seen keys (by rfl)] at h ⊢
      simp only [List.filter_cons]
      rw [show ((outName? (SolidOutputUnionM.expectation r)).isNone : Bool) = true from rfl]
      simp only [if_true]
      rw [ih _ _ h]
    | unexpected t =>
      rw [classifier_other_step ctx _ rest none seen keys (by rfl)] at h ⊢
      simp only [List.filter_cons]
      rw [show ((outName? (SolidOutputUnionM.unexpected t)).isNone : Bool) = true from rfl]
      simp only [if_true]
      rw [ih _ _ h]

/-- C2: for every step and every (cleanly exhausted) user event sequence,
the Output Classifier raises a fatal classification failure iff one of the
five violation conditions holds, and on completing runs it passes every
non-output event through unchanged. -/
theorem c2_output_classifier_iff (ctx : StepContextM) (items : List SolidOutputUnionM) :
    ((step_output_error_checked_user_event_sequence ctx items none).2.isSome ↔
      OutputViolation ctx.step_outputs items)
    ∧ ((step_output_error_checked_user_event_sequence ctx items none).2 = none →
      (step_output_error_checked_user_event_sequence ctx items none).1.filter
        (fun x => (outName? x).isNone) =
        items.filter (fun x => (outName? x).isNone)) := by
  constructor
  · constructor
    · intro hsome
      obtain ⟨e, he⟩ := Option.isSome_iff_exists.mp hsome
      rcases classifier_err_violation ctx items [] [] e he with hv | ⟨x, -, -, n, -, hmem⟩ |
        ⟨x, -, -, n, k, -, -, hmem⟩ | ⟨d, hd, hopt, hkind, -, hall⟩
      · exact Or.inl hv
      · simp at hmem
      · simp at hmem
      · exact Or.inr ⟨d, hd, hopt, hkind, hall⟩
    · intro hviol
      by_contra hns
      have hnone : (classifierGo ctx items none [] []).2 = none :=
        Option.not_isSome_iff_eq_none.mp hns
      rcases hviol with (⟨x, hx, n, hn, hdnone⟩ | hB | ⟨x, hx, n, d, hn, hd, hcases⟩ | hD) | hE
      · obtain ⟨d, hd, -, -⟩ := classifier_success_invariant ctx items [] [] hnone x hx n hn
        rw [hd] at hdnone
        exact Option.noConfusion hdnone
      · obtain ⟨i, j, hij, h1, h2, h3, n, d, hn, -, -⟩ := hB
        have hpw := classifier_success_pairwise ctx items [] [] hnone
        have hr := List.pairwise_iff_get.mp hpw i j hij
        have := (hr n hn (h3 ▸ hn)).1
        rw [h2] at this
        exact Bool.noConfusion this
      · obtain ⟨d2, hd2, hplain, hdyn⟩ :=
          classifier_success_invariant ctx items [] [] hnone x hx n hn
        rw [hd] at hd2
        obtain rfl := (Option.some.injEq _ _ ▸ hd2.symm)
        rcases hcases with ⟨hp, hdy⟩ | ⟨hdx, hdy⟩
        · rw [(hplain hp).1] at hdy
          exact Bool.noConfusion hdy
        · rw [(hdyn hdx).1] at hdy
          exact Bool.noConfusion hdy
      · obtain ⟨i, j, hij, h1, h2, h3, h4⟩ := hD
        have hpw := classifier_success_pairwise ctx items [] [] hnone
        have hr := List.pairwise_iff_get.mp hpw i j hij
        obtain ⟨n, hn⟩ : ∃ n, outName? (items.get i) = some n := by
          cases hgi : items.get i with
          | dynOut a => exact ⟨a.output_name, by simp [outName?]⟩
          | out a => exact ⟨a.output_name, by simp [outName?]⟩
          | matEvt m => rw [hgi] at h1; exact Bool.noConfusion h1
          | expectation r => rw [hgi] at h1; exact Bool.noConfusion h1
          | unexpected t => rw [hgi] at h1; exact Bool.noConfusion h1
        exact (hr n hn (h3 ▸ hn)).2 h1 h2 h4
      · obtain ⟨d, hd, hopt, hkind, hall⟩ := hE
        rcases classifier_success_required ctx items [] [] hnone d hd hopt hkind with hmem | ⟨x, hx, hn⟩
        · simp at hmem
        · exact hall x hx hn
  · intro h
    exact classifier_success_filter ctx items [] [] h

/-- Witness for C2: a static output produced twice makes the classifier
raise; a single production completes and passes the (empty) set of
non-output events through. -/
theorem c2_output_classifier_iff_witness :
    (step_output_error_checked_user_event_sequence (simpleCtx [resOutDef])
      [.out ⟨"res", some 1, []⟩, .out ⟨"res", some 2, []⟩] none).2.isSome
    ∧ (step_output_error_checked_user_event_sequence (simpleCtx [resOutDef])
      [.out ⟨"res", some 1, []⟩] none).1.filter (fun x => (outName? x).isNone) =
      ([.out ⟨"res", some 1, []⟩] :
        List SolidOutputUnionM).filter (fun x => (outName? x).isNone) := by
  constructor
  · refine (c2_output_classifier_iff (simpleCtx [resOutDef]) _).1.mpr ?_
    refine Or.inl (Or.inr (Or.inl ⟨⟨0, by decide⟩, ⟨1, by decide⟩, by decide, rfl, rfl, rfl,
      "res", resOutDef, rfl, rfl, rfl⟩))
  · exact (c2_output_classifier_iff (simpleCtx [resOutDef]) _).2 rfl

theorem classifier_success_implicit (ctx : StepContextM) (items : List SolidOutputUnionM) :
    ∀ seen keys, (classifierGo ctx items none seen keys).2 = none →
      ∀ d ∈ ctx.step_outputs, d.optional = false →
        d.dagster_type.kind = TypeKind.nothingKind → d.name ∉ seen →
        (∀ x ∈ items, outName? x ≠ some d.name) →
        SolidOutputUnionM.out ⟨d.name, none, []⟩ ∈ (classifierGo ctx items none seen keys).1 := by
  induction items with
  | nil =>
    intro seen keys h d hd hopt hkind hseen _
    exact epilogue_mem_implicit ctx ctx.step_outputs seen h d hd hopt hkind hseen
  | cons y rest ih =>
    intro seen keys h d hd hopt hkind hseen hall
    cases y with
    | out o =>
      obtain ⟨od, -, -, -, hrec, hitems⟩ := classifier_out_success ctx o rest none seen keys h
      rw [hitems]
      have hne : d.name ≠ o.output_name := by
        intro hc
        exact hall (SolidOutputUnionM.out o) (List.mem_cons_self _ _) (by simp [outName?, hc])
      refine List.mem_cons_of_mem _ (ih _ _ hrec d hd hopt hkind ?_
        (fun x hx => hall x (List.mem_cons_of_mem _ hx)))
      intro hc
      rcases List.mem_append.mp hc with hc | hc
      · exact hseen hc
      · simp only [List.mem_singleton] at hc
        exact hne hc
    | dynOut dd =>
      obtain ⟨od, -, -, -, hrec, hitems⟩ := classifier_dyn_success ctx dd rest none seen keys h
      rw [hitems]
      have hne : d.name ≠ dd.output_name := by
        intro hc
        exact hall (SolidOutputUnionM.dynOut dd) (List.mem_cons_self _ _) (by simp [outName?, hc])
      refine List.mem_cons_of_mem _ (ih _ _ hrec d hd hopt hkind ?_
        (fun x hx => hall x (List.mem_cons_of_mem _ hx)))
      intro hc
      rcases List.mem_append.mp hc with hc | hc
      · exact hseen hc
      · simp only [List.mem_singleton] at hc
        exact hne hc
    | matEvt m =>
      rw [classifier_other_step ctx _ rest none seen keys (by rfl)] at h ⊢
      exact List.mem_cons_of_mem _ (ih _ _ h d hd hopt hkind hseen
        (fun x hx => hall x (List.mem_cons_of_mem _ hx)))
    | expectation r =>
      rw [classifier_other_step ctx _ rest none seen keys (by rfl)] at h ⊢
      exact List.mem_cons_of_mem _ (ih _ _ h d hd hopt hkind hseen
        (fun x hx => hall x (List.mem_cons_of_mem _ hx)))
    | unexpected t =>
      rw [classifier_other_step ctx _ rest none seen keys (by rfl)] at h ⊢
      exact List.mem_cons_of_mem _ (ih _ _ h d hd hopt hkind hseen
        (fun x hx => hall x (List.mem_cons_of_mem _ hx)))

theorem classifier_notfound_shape (ctx : StepContextM) (items : List SolidOutputUnionM) :
    ∀ seen keys m k n, (classifierGo ctx items none seen keys).2 =
      some (.stepOutputNotFound m k n) →
      ∃ d ∈ ctx.step_outputs, d.name = n ∧ d.optional = false ∧
        d.dagster_type.kind ≠ TypeKind.nothingKind := by
  induction items with
  | nil =>
    intro seen keys m k n h
    obtain ⟨d, hd, hopt, hkind, -, he⟩ := epilogue_err_shape ctx ctx.step_outputs seen _ h
    refine ⟨d, hd, ?_, hopt, hkind⟩
    cases he
    rfl
  | cons y rest ih =>
    intro seen keys m k n h
    cases y with
    | out o =>
      cases hd : declOf ctx.step_outputs o.output_name with
      | none => simp [classifierGo, hd] at h
      | some od =>
        by_cases hseen : o.output_name ∈ seen
        · simp [classifierGo, hd, hseen] at h
        · by_cases hdyn : od.is_dynamic = true
          · simp [classifierGo, hd, hseen, hdyn] at h
          · exact ih _ _ m k n (by simpa [classifierGo, hd, hseen, hdyn] using h)
    | dynOut dd =>
      cases hd : declOf ctx.step_outputs dd.output_name with
      | none => simp [classifierGo, hd] at h
      | some od =>
        by_cases hdyn : od.is_dynamic = true
        · by_cases hkey : (dd.output_name, dd.mapping_key) ∈ keys
          · simp [classifierGo, hd, hdyn, hkey] at h
          · exact ih _ _ m k n (by simpa [classifierGo, hd, hdyn, hkey] using h)
        · simp [classifierGo, hd, hdyn] at h
    | matEvt b =>
      rw [classifier_other_step ctx _ rest none seen keys (by rfl)] at h
      exact ih _ _ m k n h
    | expectation r =>
      rw [classifier_other_step ctx _ rest none seen keys (by rfl)] at h
      exact ih _ _ m k n h
    | unexpected t =>
      rw [classifier_other_step ctx _ rest none seen keys (by rfl)] at h
      exact ih _ _ m k n h

/-- C8 counterexample: `log` is a declared output of Nothing type that is
never produced, yet (because it is optional) the classifier completes while
yielding NO implicit empty output for it — the result item list is empty. -/
theorem c8_counterexample_optional_nothing :
    (simpleCtx [optNothingOutDef]).step_outputs = [optNothingOutDef]
    ∧ optNothingOutDef.dagster_type.kind = TypeKind.nothingKind
    ∧ step_output_error_checked_user_event_sequence (simpleCtx [optNothingOutDef]) [] none =
      ([], none) :=
  ⟨rfl, rfl, rfl⟩

/-- C8 (amended): only for a declared NON-OPTIONAL output whose value-type
is Nothing and that was never produced does the classifier yield the
implicit empty output (value None) after the underlying sequence is
exhausted, on runs where the epilogue completes; and a missing-output
failure is never raised for a Nothing-typed (or optional) output. -/
theorem c8_nothing_implicit_output (ctx : StepContextM) (items : List SolidOutputUnionM) :
    ((step_output_error_checked_user_event_sequence ctx items none).2 = none →
      ∀ d ∈ ctx.step_outputs, d.optional = false →
        d.dagster_type.kind = TypeKind.nothingKind →
        (∀ x ∈ items, outName? x ≠ some d.name) →
        SolidOutputUnionM.out ⟨d.name, none, []⟩ ∈
          (step_output_error_checked_user_event_sequence ctx items none).1)
    ∧ (∀ m k n, (step_output_error_checked_user_event_sequence ctx items none).2 =
        some (.stepOutputNotFound m k n) →
        ∃ d ∈ ctx.step_outputs, d.name = n ∧ d.optional = false ∧
          d.dagster_type.kind ≠ TypeKind.nothingKind) := by
  constructor
  · intro h d hd hopt hkind hall
    exact classifier_success_implicit ctx items [] [] h d hd hopt hkind (by simp) hall
  · intro m k n h
    exact classifier_notfound_shape ctx items [] [] m k n h

/-- Witness for C8 (amended): a required Nothing output never produced
yields the implicit empty output on an empty compute sequence. -/
theorem c8_nothing_implicit_output_witness :
    SolidOutputUnionM.out ⟨"log", none, []⟩ ∈
      (step_output_error_checked_user_event_sequence (simpleCtx [reqNothingOutDef]) [] none).1 := by
  have h := (c8_nothing_implicit_output (simpleCtx [reqNothingOutDef]) []).1 rfl
    reqNothingOutDef (by simp [simpleCtx]) rfl rfl (by simp)
  exact h

theorem type_check_output_events_kinds (ctx : StepContextM) (handle : StepOutputHandle)
    (o : OutputLike) (version : Option String) :
    ∀ e ∈ (type_check_output ctx handle o version).1,
      isMaterializationEvt e = false ∧ isHandledOutputEvt e = false := by
  intro e he
  unfold type_check_output at he
  cases hf : ctx.step_outputs.find? (fun od => od.name = o.output_name) with
  | none => rw [hf] at he; simp at he
  | some od =>
    rw [hf] at he
    simp only [List.mem_singleton] at he
    subst he
    exact ⟨rfl, rfl⟩

theorem tcs_events_on_check_failure (ctx : StepContextM) (o : OutputLike)
    (ia : List AssetPartitions)
    (h : (type_check_output ctx ⟨ctx.step_key, o.output_name, o.mapping_key⟩ o
      (tcsVersion ctx o)).2.isSome = true) :
    (type_check_and_store_output ctx o ia).1 =
      (type_check_output ctx ⟨ctx.step_key, o.output_name, o.mapping_key⟩ o
        (tcsVersion ctx o)).1 := by
  obtain ⟨e, he⟩ := Option.isSome_iff_exists.mp h
  have he2 : (type_check_output ctx ⟨ctx.step_key, o.output_name, o.mapping_key⟩ o
      (if ctx.memoized_run = true then
        ctx.resolve_version ⟨ctx.step_key, o.output_name, o.mapping_key⟩ else none)).2 =
      some e := he
  unfold type_check_and_store_output
  simp only [he2]
  rfl

/-- C3: a checker returning anything other than a well-formed TypeCheck is
treated as a failed check; on a failed check (input or output) the
type-check event — carrying the check's description and metadata entries —
is in the yielded sequence even though the terminal type-mismatch failure is
raised; and a failed output check leaves the dispatch with no
materialization and no handled-output event for that output. -/
theorem c3_type_check_adapter (ctx : StepContextM) :
    (∀ dt v rt, dt.type_check v = .malformed rt → (do_type_check dt v).success = false)
    ∧ (∀ input_name v si, ctx.step_inputs.find? (fun s => s.name = input_name) = some si →
        (do_type_check si.dagster_type v).success = false →
        type_checked_event_sequence_for_input ctx input_name v =
          ([create_step_input_event input_name (do_type_check si.dagster_type v) false],
            some (.typeCheckDidNotPass ("Type check failed for step input " ++ input_name)
              (do_type_check si.dagster_type v).metadata_entries)))
    ∧ (∀ handle o version od,
        ctx.step_outputs.find? (fun d => d.name = o.output_name) = some od →
        (do_type_check od.dagster_type o.value).success = false →
        type_check_output ctx handle o version =
          ([.stepOutputEvt handle false (do_type_check od.dagster_type o.value).description
              (do_type_check od.dagster_type o.value).metadata_entries version
              (plainEntries o.metadata_entries)],
            some (.typeCheckDidNotPass ("Type check failed for step output " ++ o.output_name)
              (do_type_check od.dagster_type o.value).metadata_entries)))
    ∧ (∀ o ia, (type_check_output ctx ⟨ctx.step_key, o.output_name, o.mapping_key⟩ o
          (tcsVersion ctx o)).2.isSome = true →
        ∀ e ∈ (type_check_and_store_output ctx o ia).1,
          isMaterializationEvt e = false ∧ isHandledOutputEvt e = false) := by
  refine ⟨?_, ?_, ?_, ?_⟩
  · intro dt v rt h
    unfold do_type_check
    rw [h]
  · intro input_name v si hf hfail
    unfold type_checked_event_sequence_for_input
    rw [hf]
    simp only [hfail, Bool.false_eq_true, if_false]
  · intro handle o version od hf hfail
    unfold type_check_output
    rw [hf]
    simp only [hfail, Bool.false_eq_true, if_false]
  · intro o ia h e he
    rw [tcs_events_on_check_failure ctx o ia h] at he
    exact type_check_output_events_kinds ctx _ o _ e he

/-- Witness for C3: `malformedType` fails its check; `failCtx` fails its
input check yet yields the input event; the failed output check in
`failCtx` leaves the dispatch with no materialization / handled-output
event. -/
theorem c3_type_check_adapter_witness :
    (do_type_check malformedType (some 0)).success = false
    ∧ type_checked_event_sequence_for_input failCtx "x" (some 5) =
      ([create_step_input_event "x" (do_type_check failType (some 5)) false],
        some (.typeCheckDidNotPass ("Type check failed for step input " ++ "x")
          (do_type_check failType (some 5)).metadata_entries))
    ∧ (∀ e ∈ (type_check_and_store_output failCtx ⟨"res", some 7, [], none⟩ []).1,
        isMaterializationEvt e = false ∧ isHandledOutputEvt e = false) := by
  refine ⟨(c3_type_check_adapter failCtx).1 malformedType (some 0) "str" rfl, ?_, ?_⟩
  · exact (c3_type_check_adapter failCtx).2.1 "x" (some 5)
      ⟨"x", failType, [], [.value (some 5)]⟩ rfl rfl
  · exact (c3_type_check_adapter failCtx).2.2.2 ⟨"res", some 7, [], none⟩ [] rfl

/-- C10: whenever the caller supplies an output-capture sink, the dispatch
stage records the output value keyed by its step-output handle — whatever
the type check, storage or materializer then do (so in particular also when
the type check fails and aborts the step). -/
theorem c10_output_capture (ctx : StepContextM) (o : OutputLike) (ia : List AssetPartitions)
    (h : ctx.output_capture = true) :
    (type_check_and_store_output ctx o ia).2.1 =
      [(⟨ctx.step_key, o.output_name, o.mapping_key⟩, o.value)] := by
  unfold type_check_and_store_output
  cases htc : (type_check_output ctx ⟨ctx.step_key, o.output_name, o.mapping_key⟩ o
      (if ctx.memoized_run = true then
        ctx.resolve_version ⟨ctx.step_key, o.output_name, o.mapping_key⟩ else none)).2 with
  | some e => simp [htc, h]
  | none =>
    cases hst : (store_output ctx ⟨ctx.step_key, o.output_name, o.mapping_key⟩ o ia).2 with
    | some e => simp [htc, hst, h]
    | none => simp [htc, hst, h]

/-- Witness for C10: in `captureCtx` (capture sink supplied, failing type
check) the value is recorded under its handle. -/
theorem c10_output_capture_witness :
    (type_check_and_store_output captureCtx ⟨"res", some 3, [], none⟩ []).2.1 =
      [(⟨"step1", "res", none⟩, some 3)] :=
  c10_output_capture captureCtx ⟨"res", some 3, [], none⟩ [] rfl

/-- C5: if both the output declaration and its storage backend claim an
asset target, a fatal configuration error is raised, and it is raised
before the store operation is invoked (the store result is the error alone,
whatever `handle_output` would do); if exactly one claims, that claim is
used; if neither, there is no asset target. -/
theorem c5_asset_target_resolution :
    (∀ od mgr a b, od.definition_asset = some a → mgr.get_output_asset = some b →
      asset_partitions_for_output od mgr = .error (.invariantViolation bothClaimMsg))
    ∧ (∀ od mgr a, od.definition_asset = some a → mgr.get_output_asset = none →
      asset_partitions_for_output od mgr = .ok (some a))
    ∧ (∀ od mgr b, od.definition_asset = none → mgr.get_output_asset = some b →
      asset_partitions_for_output od mgr = .ok (some b))
    ∧ (∀ od mgr, od.definition_asset = none → mgr.get_output_asset = none →
      asset_partitions_for_output od mgr = .ok none)
    ∧ (∀ ctx handle o ia od a b,
        (ctx : StepContextM).step_outputs.find?
          (fun d => d.name = (handle : StepOutputHandle).output_name) = some od →
        od.definition_asset = some a → od.manager.get_output_asset = some b →
        store_output ctx handle o ia = ([], some (.invariantViolation bothClaimMsg))) := by
  refine ⟨?_, ?_, ?_, ?_, ?_⟩
  · intro od mgr a b h1 h2
    unfold asset_partitions_for_output
    rw [h1, h2]
  · intro od mgr a h1 h2
    unfold asset_partitions_for_output
    rw [h1, h2]
  · intro od mgr b h1 h2
    unfold asset_partitions_for_output
    rw [h1, h2]
  · intro od mgr h1 h2
    unfold asset_partitions_for_output
    rw [h1, h2]
  · intro ctx handle o ia od a b hf h1 h2
    have hap : asset_partitions_for_output od od.manager =
        .error (.invariantViolation bothClaimMsg) := by
      unfold asset_partitions_for_output
      rw [h1, h2]
    unfold store_output
    rw [hf]
    simp only [hap]

/-- Witness for C5: the doubly-claiming output in `bothClaimCtx` produces
the configuration error even though its manager's store call would raise. -/
theorem c5_asset_target_resolution_witness :
    asset_partitions_for_output bothClaimOutDef bothClaimManager =
      .error (.invariantViolation bothClaimMsg)
    ∧ store_output bothClaimCtx ⟨"step1", "res", none⟩ ⟨"res", some 1, [], none⟩ [] =
      ([], some (.invariantViolation bothClaimMsg))
    ∧ asset_partitions_for_output resOutDef quietManager = .ok none := by
  refine ⟨?_, ?_, ?_⟩
  · exact c5_asset_target_resolution.1 bothClaimOutDef bothClaimManager _ _ rfl rfl
  · exact c5_asset_target_resolution.2.2.2.2 bothClaimCtx ⟨"step1", "res", none⟩
      ⟨"res", some 1, [], none⟩ [] bothClaimOutDef _ _ rfl rfl rfl
  · exact c5_asset_target_resolution.2.2.2.1 resOutDef quietManager rfl rfl

/-! ## Metadata-routing lemmas -/

theorem keys_appendToBucket (m : List (Option String × List EMeta)) (k : Option String)
    (e : EMeta) : (appendToBucket m k e).map Prod.fst = m.map Prod.fst := by
  unfold appendToBucket
  rw [List.map_map]
  apply List.map_congr_left
  intro kv _
  by_cases h : kv.1 = k <;> simp [h]

theorem keys_mapPlain (m : List (Option String × List EMeta)) (e : EMeta) :
    (m.map (fun kv => (kv.1, kv.2 ++ [e]))).map Prod.fst = m.map Prod.fst := by
  rw [List.map_map]
  rfl

theorem bucketSpec_nil (p : Option String) : bucketSpec [] p = [] := rfl

theorem bucketSpec_cons_plain (e : EMeta) (rest : List MetaEntry) (p : Option String) :
    bucketSpec (.plain e :: rest) p = e :: bucketSpec rest p := rfl

theorem bucketSpec_cons_part (q : String) (e : EMeta) (rest : List MetaEntry) (p : Option String) :
    bucketSpec (.partitioned q e :: rest) p =
      if some q = p then e :: bucketSpec rest p else bucketSpec rest p := by
  unfold bucketSpec
  rw [List.filterMap_cons]
  by_cases h : some q = p <;> simp [h]

theorem routeEntries_ok_shape (entries : List MetaEntry) :
    ∀ m mm, routeEntries m entries = .ok mm →
      mm = m.map (fun kv => (kv.1, kv.2 ++ bucketSpec entries kv.1)) := by
  induction entries with
  | nil =>
    intro m mm h
    simp only [routeEntries] at h
    cases h
    simp [bucketSpec_nil]
  | cons en rest ih =>
    intro m mm h
    cases en with
    | plain e =>
      rw [show routeEntries m (.plain e :: rest) =
          routeEntries (m.map (fun kv => (kv.1, kv.2 ++ [e]))) rest from rfl] at h
      rw [ih _ _ h, List.map_map]
      apply List.map_congr_left
      intro kv _
      simp [bucketSpec_cons_plain]
    | partitioned q e =>
      by_cases hq : some q ∈ m.map Prod.fst
      · rw [show routeEntries m (.partitioned q e :: rest) =
            (if some q ∈ m.map Prod.fst then
              routeEntries (appendToBucket m (some q) e) rest
            else .error (.invariantViolation
              "Output associated a metadata entry with a partition that is not one of the declared partition mappings.")) from rfl,
          if_pos hq] at h
        rw [ih _ _ h]
        unfold appendToBucket
        rw [List.map_map]
        apply List.map_congr_left
        intro kv _
        by_cases hk : kv.1 = some q
        · simp [Function.comp, hk, bucketSpec_cons_part, List.append_assoc]
        · have hk2 : ¬(some q = kv.1) := fun hc => hk hc.symm
          simp [Function.comp, hk, hk2, bucketSpec_cons_part]
      · rw [show routeEntries m (.partitioned q e :: rest) =
            (if some q ∈ m.map Prod.fst then
              routeEntries (appendToBucket m (some q) e) rest
            else .error (.invariantViolation
              "Output associated a metadata entry with a partition that is not one of the declared partition mappings.")) from rfl,
          if_neg hq] at h
        exact Except.noConfusion h

theorem routeEntries_error_iff (entries : List MetaEntry) :
    ∀ m, (∃ e, routeEntries m entries = .error e) ↔
      ∃ p en, MetaEntry.partitioned p en ∈ entries ∧ some p ∉ m.map Prod.fst := by
  induction entries with
  | nil =>
    intro m
    constructor
    · rintro ⟨e, he⟩
      simp only [routeEntries] at he
      exact Except.noConfusion he
    · rintro ⟨p, en, hmem, -⟩
      simp at hmem
  | cons en0 rest ih =>
    intro m
    cases en0 with
    | plain e =>
      rw [show routeEntries m (.plain e :: rest) =
        routeEntries (m.map fun kv => (kv.1, kv.2 ++ [e])) rest from rfl]
      rw [ih _, keys_mapPlain]
      constructor
      · rintro ⟨p, en, hmem, hp⟩
        exact ⟨p, en, List.mem_cons_of_mem _ hmem, hp⟩
      · rintro ⟨p, en, hmem, hp⟩
        rcases List.mem_cons.mp hmem with hc | hmem2
        · exact absurd hc (by simp)
        · exact ⟨p, en, hmem2, hp⟩
    | partitioned q e =>
      by_cases hq : some q ∈ m.map Prod.fst
      · have hstep : routeEntries m (.partitioned q e :: rest) =
            routeEntries (appendToBucket m (some q) e) rest := by
          rw [show routeEntries m (.partitioned q e :: rest) =
            (if some q ∈ m.map Prod.fst then
              routeEntries (appendToBucket m (some q) e) rest
            else .error (.invariantViolation
              "Output associated a metadata entry with a partition that is not one of the declared partition mappings.")) from rfl,
            if_pos hq]
        rw [hstep, ih _, keys_appendToBucket]
        constructor
        · rintro ⟨p, en, hmem, hp⟩
          exact ⟨p, en, List.mem_cons_of_mem _ hmem, hp⟩
        · rintro ⟨p, en, hmem, hp⟩
          rcases List.mem_cons.mp hmem with hc | hmem2
          · cases hc
            exact absurd hq hp
          · exact ⟨p, en, hmem2, hp⟩
      · have hstep : routeEntries m (.partitioned q e :: rest) =
            .error (.invariantViolation
              "Output associated a metadata entry with a partition that is not one of the declared partition mappings.") := by
          rw [show routeEntries m (.partitioned q e :: rest) =
            (if some q ∈ m.map Prod.fst then
              routeEntries (appendToBucket m (some q) e) rest
            else .error (.invariantViolation
              "Output associated a metadata entry with a partition that is not one of the declared partition mappings.")) from rfl,
            if_neg hq]
        constructor
        · intro _
          exact ⟨q, e, List.mem_cons_self _ _, hq⟩
        · intro _
          exact ⟨_, hstep⟩

theorem bucketOf_all_empty (m : List (Option String × List EMeta))
    (h : ∀ kv ∈ m, kv.2 = []) (p : Option String) : bucketOf m p = [] := by
  induction m with
  | nil => rfl
  | cons kv rest ih =>
    by_cases hk : kv.1 = p
    · show (if kv.1 = p then kv.2 else bucketOf rest p) = []
      rw [if_pos hk]
      exact h kv (by simp)
    · show (if kv.1 = p then kv.2 else bucketOf rest p) = []
      rw [if_neg hk]
      exact ih (fun x hx => h x (by simp [hx]))

theorem initMetadataMapping_go_empty (flat : List (String × Option String)) :
    ∀ acc, (∀ kv ∈ acc, kv.2 = ([] : List EMeta)) →
      ∀ kv ∈ flat.foldl
        (fun acc kp => if kp.2 ∈ acc.map Prod.fst then acc else acc ++ [(kp.2, [])]) acc,
        kv.2 = [] := by
  induction flat with
  | nil => intro acc h; exact h
  | cons kp rest ih =>
    intro acc h
    rw [List.foldl_cons]
    refine ih _ ?_
    by_cases hm : kp.2 ∈ acc.map Prod.fst
    · simpa [hm] using h
    · simp only [hm, if_neg, Bool.false_eq_true, if_false]
      intro kv hkv
      rcases List.mem_append.mp hkv with hkv | hkv
      · exact h kv hkv
      · simp only [List.mem_singleton] at hkv
        rw [hkv]

theorem initMetadataMapping_empty (flat : List (String × Option String)) :
    ∀ kv ∈ initMetadataMapping flat, kv.2 = [] :=
  initMetadataMapping_go_empty flat [] (by simp)

theorem mem_keys_initGo (flat : List (String × Option String)) :
    ∀ (acc : List (Option String × List EMeta)) (k : Option String),
      k ∈ (flat.foldl
        (fun acc kp => if kp.2 ∈ acc.map Prod.fst then acc else acc ++ [(kp.2, [])]) acc).map
          Prod.fst ↔
      k ∈ acc.map Prod.fst ∨ k ∈ flat.map Prod.snd := by
  induction flat with
  | nil => intro acc k; simp
  | cons kp rest ih =>
    intro acc k
    rw [List.foldl_cons, ih]
    by_cases hm : kp.2 ∈ acc.map Prod.fst
    · simp only [hm, if_pos]
      constructor
      · rintro (h | h)
        · exact Or.inl h
        · exact Or.inr (by simp [h])
      · rintro (h | h)
        · exact Or.inl h
        · rcases List.mem_cons.mp (show k ∈ kp.2 :: rest.map Prod.snd from h) with rfl | h2
          · exact Or.inl hm
          · exact Or.inr h2
    · simp only [hm, if_neg, Bool.false_eq_true, if_false]
      rw [List.map_append]
      constructor
      · rintro (h | h)
        · rcases List.mem_append.mp h with h2 | h2
          · exact Or.inl h2
          · simp only [List.map_cons, List.map_nil, List.mem_singleton] at h2
            exact Or.inr (by simp [h2])
        · exact Or.inr (by simp [h])
      · rintro (h | h)
        · exact Or.inl (List.mem_append_left _ h)
        · rcases List.mem_cons.mp (show k ∈ kp.2 :: rest.map Prod.snd from h) with rfl | h2
          · exact Or.inl (List.mem_append_right _ (by simp))
          · exact Or.inr h2

theorem mem_keys_initMetadataMapping (flat : List (String × Option String)) (k : Option String) :
    k ∈ (initMetadataMapping flat).map Prod.fst ↔ k ∈ flat.map Prod.snd := by
  unfold initMetadataMapping
  rw [mem_keys_initGo]
  simp

theorem bucketOf_append_g (g : Option String → List EMeta) :
    ∀ m p, p ∈ m.map Prod.fst →
      bucketOf (m.map (fun kv => (kv.1, kv.2 ++ g kv.1))) p = bucketOf m p ++ g p := by
  intro m
  induction m with
  | nil => intro p hp; simp at hp
  | cons kv rest ih =>
    intro p hp
    by_cases hk : kv.1 = p
    · show (if kv.1 = p then kv.2 ++ g kv.1 else _) = (if kv.1 = p then kv.2 else _) ++ g p
      rw [if_pos hk, if_pos hk, hk]
    · show (if kv.1 = p then kv.2 ++ g kv.1 else _) = (if kv.1 = p then kv.2 else _) ++ g p
      rw [if_neg hk, if_neg hk]
      refine ih p ?_
      rcases List.mem_cons.mp (show p ∈ kv.1 :: rest.map Prod.fst from hp) with h | h
      · exact absurd h.symm hk
      · exact h

theorem bucketOf_route_init (flat : List (String × Option String)) (entries : List MetaEntry)
    (mm : List (Option String × List EMeta))
    (hok : routeEntries (initMetadataMapping flat) entries = .ok mm)
    (p : Option String) (hp : p ∈ flat.map Prod.snd) :
    bucketOf mm p = bucketSpec entries p := by
  rw [routeEntries_ok_shape entries _ _ hok]
  have hpk : p ∈ (initMetadataMapping flat).map Prod.fst :=
    (mem_keys_initMetadataMapping flat p).mpr hp
  rw [bucketOf_append_g (bucketSpec entries) _ p hpk]
  rw [bucketOf_all_empty _ (initMetadataMapping_empty flat) p]
  rfl

/-- The events of a successful `store_finish`, with each per-partition
bucket written out via `bucketOf`. -/
theorem store_finish_success (handle : StepOutputHandle) (o : OutputLike)
    (ia : List AssetPartitions) (od : OutputDefM) (mgr : IOManagerM)
    (flat : List (String × Option String)) (mmats : List AssetMaterialization)
    (mmeta : List MetaEntry) (mm : List (Option String × List EMeta))
    (hok : routeEntries (initMetadataMapping flat) (o.metadata_entries ++ mmeta) = .ok mm) :
    store_finish handle o ia od mgr flat (initMetadataMapping flat) mmats mmeta =
      (flat.map (fun kp =>
        DagsterEventM.stepMaterialization ⟨kp.1, kp.2, bucketOf mm kp.2⟩ (some ia))
      ++ mmats.map (fun m => DagsterEventM.stepMaterialization m (some ia))
      ++ [DagsterEventM.handledOutput handle.output_name od.io_manager_key
          (if mgr.isIntermediateAdapter then
            some "Handled input using intermediate storage" else none)
          (plainEntries mmeta)], none) := by
  unfold store_finish
  rw [hok]

/-- C6: every metadata entry (output entries then backend entries) is
routed so that a partition-targeted entry lands only in its named
partition's bucket — with a fatal error iff some targeted partition is not
among the resolved targets — while an untargeted entry lands in every
bucket; consequently each per-partition materialization event carries
exactly its own partition's accumulated bucket. -/
theorem c6_metadata_routing :
    (∀ flat entries mm, routeEntries (initMetadataMapping flat) entries = .ok mm →
      ∀ p, p ∈ flat.map Prod.snd → bucketOf mm p = bucketSpec entries p)
    ∧ (∀ flat entries, (∃ e, routeEntries (initMetadataMapping flat) entries = .error e) ↔
        ∃ p en, MetaEntry.partitioned p en ∈ entries ∧ some p ∉ flat.map Prod.snd)
    ∧ (∀ handle o ia od mgr flat mmats mmeta mm,
        routeEntries (initMetadataMapping flat)
          ((o : OutputLike).metadata_entries ++ mmeta) = .ok mm →
        store_finish handle o ia od mgr flat (initMetadataMapping flat) mmats mmeta =
          (flat.map (fun kp => DagsterEventM.stepMaterialization
            ⟨kp.1, kp.2, bucketSpec (o.metadata_entries ++ mmeta) kp.2⟩ (some ia))
          ++ mmats.map (fun m => DagsterEventM.stepMaterialization m (some ia))
          ++ [DagsterEventM.handledOutput handle.output_name od.io_manager_key
              (if mgr.isIntermediateAdapter then
                some "Handled input using intermediate storage" else none)
              (plainEntries mmeta)], none)) := by
  refine ⟨?_, ?_, ?_⟩
  · intro flat entries mm hok p hp
    exact bucketOf_route_init flat entries mm hok p hp
  · intro flat entries
    rw [routeEntries_error_iff]
    constructor
    · rintro ⟨p, en, hmem, hp⟩
      exact ⟨p, en, hmem, fun hc => hp ((mem_keys_initMetadataMapping flat (some p)).mpr hc)⟩
    · rintro ⟨p, en, hmem, hp⟩
      exact ⟨p, en, hmem, fun hc => hp ((mem_keys_initMetadataMapping flat (some p)).mp hc)⟩
  · intro handle o ia od mgr flat mmats mmeta mm hok
    rw [store_finish_success handle o ia od mgr flat mmats mmeta mm hok]
    refine congrArg (fun l => (l ++ _ ++ _, none)) ?_
    apply List.map_congr_left
    intro kp hkp
    rw [bucketOf_route_init flat _ mm hok kp.2 (by exact List.mem_map_of_mem Prod.snd hkp)]

/-- Witness for C6 at a concrete flattened asset list and entry list:
partition `p1` gets the untargeted entry plus its own targeted entry, `p2`
only the untargeted one; targeting an unresolved partition errors. -/
theorem c6_metadata_routing_witness :
    (∀ p, p ∈ ([("a", some "p1"), ("a", some "p2")] :
        List (String × Option String)).map Prod.snd →
      bucketOf ((routeEntries (initMetadataMapping [("a", some "p1"), ("a", some "p2")])
        [.plain "m0", .partitioned "p1" "m1"]).toOption.getD []) p =
        bucketSpec [.plain "m0", .partitioned "p1" "m1"] p)
    ∧ (∃ e, routeEntries (initMetadataMapping [("a", some "p1")])
        [.partitioned "p3" "m1"] = .error e) := by
  constructor
  · intro p hp
    refine c6_metadata_routing.1 [("a", some "p1"), ("a", some "p2")]
      [.plain "m0", .partitioned "p1" "m1"] _ ?_ p hp
    rfl
  · refine (c6_metadata_routing.2.1 [("a", some "p1")] [.partitioned "p3" "m1"]).mpr ?_
    exact ⟨"p3", "m1", by simp, by decide⟩

/-! ## Error-boundary behaviour (C4) -/

/-- C4 counterexample: with `lazyPullCtx`, the exception raised while
iterating the backend's lazily returned store result escapes as a raw
exception — not as the `handleOutputError` (with step key and output name)
that the claim requires for "any other exception" at this boundary. -/
theorem c4_counterexample_lazy_store_pull :
    store_output lazyPullCtx ⟨"step1", "res", none⟩ ⟨"res", some 1, [], none⟩ [] =
      ([], some (.rawExc "boom"))
    ∧ Err.rawExc "boom" ≠ Err.handleOutputError "step1" "res" "boom" :=
  ⟨rfl, by decide⟩

/-- C4 (amended): the compute boundary stays active for the whole lazy
iteration and classifies the terminal exception (control-flow signals
unchanged, others wrapped with step and node identity); the store boundary
re-raises control-flow signals unchanged and wraps other exceptions of the
`handle_output` CALL with step key and output name, but it covers only that
call — an exception raised while iterating a lazily returned store result
propagates with no boundary active. -/
theorem c4_error_boundaries (ctx : StepContextM) :
    (∀ items msg, user_event_sequence_for_step_compute_fn ctx
        ⟨items, some (.otherExc msg)⟩ =
        (items, some (.stepExecutionError ctx.step_key ctx.solid_def_name ctx.solid_name msg)))
    ∧ (∀ items, user_event_sequence_for_step_compute_fn ctx ⟨items, some .failure⟩ =
        (items, some .userFailure))
    ∧ (∀ items, user_event_sequence_for_step_compute_fn ctx ⟨items, some .retryRequested⟩ =
        (items, some .retryRequestedErr))
    ∧ (∀ items, user_event_sequence_for_step_compute_fn ctx ⟨items, none⟩ = (items, none))
    ∧ (∀ handle o ia od apOpt exc,
        ctx.step_outputs.find? (fun d => d.name = (handle : StepOutputHandle).output_name) =
          some od →
        asset_partitions_for_output od od.manager = .ok apOpt →
        od.manager.handle_output (o : OutputLike).value = .raises exc →
        store_output ctx handle o ia =
          ([], some (boundaryWrap
            (fun m => .handleOutputError ctx.step_key handle.output_name m) exc)))
    ∧ (∀ handle o ia od apOpt elts parts exc,
        ctx.step_outputs.find? (fun d => d.name = (handle : StepOutputHandle).output_name) =
          some od →
        asset_partitions_for_output od od.manager = .ok apOpt →
        od.manager.handle_output (o : OutputLike).value = .returnsGen elts (some exc) →
        classifyStoreElts elts = .ok parts →
        store_output ctx handle o ia = ([], some (raiseRaw exc))) := by
  refine ⟨?_, ?_, ?_, ?_, ?_, ?_⟩
  · intro items msg; rfl
  · intro items; rfl
  · intro items; rfl
  · intro items; rfl
  · intro handle o ia od apOpt exc hf hap hho
    unfold store_output
    rw [hf]
    simp only [hap, hho]
  · intro handle o ia od apOpt elts parts exc hf hap hho hcl
    unfold store_output
    rw [hf]
    simp only [hap, hho, hcl]

/-- Witness for C4 (amended): the raising manager's `Failure` and ordinary
exception at the call site, the wrapped compute exception, and the raw
escape of the pull-time exception, all at concrete inputs. -/
theorem c4_error_boundaries_witness :
    user_event_sequence_for_step_compute_fn raisingCtx ⟨[], some (.otherExc "x")⟩ =
      ([], some (.stepExecutionError "step1" "solid1_def" "solid1" "x"))
    ∧ store_output raisingCtx ⟨"step1", "res", none⟩ ⟨"res", some 1, [], none⟩ [] =
      ([], some .userFailure)
    ∧ store_output raisingCtx ⟨"step1", "res", none⟩ ⟨"res", some 3, [], none⟩ [] =
      ([], some (.handleOutputError "step1" "res" "bang"))
    ∧ store_output lazyPullCtx ⟨"step1", "res", none⟩ ⟨"res", some 1, [], none⟩ [] =
      ([], some (.rawExc "boom")) := by
  refine ⟨?_, ?_, ?_, ?_⟩
  · exact (c4_error_boundaries raisingCtx).1 [] "x"
  · exact (c4_error_boundaries raisingCtx).2.2.2.2.1 ⟨"step1", "res", none⟩
      ⟨"res", some 1, [], none⟩ [] raisingOutDef none Exc.failure rfl rfl rfl
  · exact (c4_error_boundaries raisingCtx).2.2.2.2.1 ⟨"step1", "res", none⟩
      ⟨"res", some 3, [], none⟩ [] raisingOutDef none (Exc.otherExc "bang") rfl rfl rfl
  · exact (c4_error_boundaries lazyPullCtx).2.2.2.2.2 ⟨"step1", "res", none⟩
      ⟨"res", some 1, [], none⟩ [] lazyPullOutDef none [] ([], [])
      (Exc.otherExc "boom") rfl rfl rfl rfl

/-! ## Event-kind lemmas for the step phases -/

theorem seqT_mem (a : List DagsterEventM × Option Err) (b : Unit → List DagsterEventM × Option Err)
    (e : DagsterEventM) (he : e ∈ (seqT a b).1) : e ∈ a.1 ∨ e ∈ (b ()).1 := by
  unfold seqT at he
  cases ha : a.2 with
  | some err => rw [ha] at he; exact Or.inl he
  | none =>
    rw [ha] at he
    simp only at he
    rcases List.mem_append.mp he with h | h
    · exact Or.inl h
    · exact Or.inr h

theorem matEltsToEvents_shape :
    ∀ elts e, e ∈ (matEltsToEvents elts).1 → ∃ m, e = DagsterEventM.stepMaterialization m none := by
  intro elts
  induction elts with
  | nil => intro e he; simp [matEltsToEvents] at he
  | cons elt rest ih =>
    intro e he
    cases elt with
    | mat m =>
      rw [show (matEltsToEvents (.mat m :: rest)).1 =
        DagsterEventM.stepMaterialization m none :: (matEltsToEvents rest).1 from rfl] at he
      rcases List.mem_cons.mp he with rfl | h2
      · exact ⟨m, rfl⟩
      · exact ih e h2
    | badElt t =>
      rw [show (matEltsToEvents (.badElt t :: rest)).1 = [] from rfl] at he
      simp at he

theorem create_type_mat_for_spec_shape (ctx : StepContextM) (n : String) (v : Val) (spec : Spec) :
    ∀ e ∈ (create_type_mat_for_spec ctx n v spec).1,
      ∃ m, e = DagsterEventM.stepMaterialization m none := by
  intro e he
  unfold create_type_mat_for_spec at he
  cases hf : ctx.step_outputs.find? (fun od => od.name = n) with
  | none => rw [hf] at he; simp at he
  | some od =>
    rw [hf] at he
    cases hm : od.dagster_type.materialize_runtime_values spec v with
    | raises msg => simp only [hm] at he; simp at he
    | returns elts =>
      simp only [hm] at he
      exact matEltsToEvents_shape elts e he

theorem typeMatsSpecs_shape (ctx : StepContextM) (n : String) (v : Val) :
    ∀ specs e, e ∈ (typeMatsSpecs ctx n v specs).1 →
      ∃ m, e = DagsterEventM.stepMaterialization m none := by
  intro specs
  induction specs with
  | nil => intro e he; simp [typeMatsSpecs] at he
  | cons sp rest ih =>
    intro e he
    unfold typeMatsSpecs at he
    by_cases hn : sp.1 = n
    · rw [if_pos hn] at he
      rcases seqT_mem _ _ e he with h | h
      · exact create_type_mat_for_spec_shape ctx n v sp.2 e h
      · exact ih e h
    · rw [if_neg hn] at he
      exact ih e he

theorem typeMatsLevels_shape (ctx : StepContextM) (n : String) (v : Val) :
    ∀ levels e, e ∈ (typeMatsLevels ctx n v levels).1 →
      ∃ m, e = DagsterEventM.stepMaterialization m none := by
  intro levels
  induction levels with
  | nil => intro e he; simp [typeMatsLevels] at he
  | cons level rest ih =>
    intro e he
    unfold typeMatsLevels at he
    cases hc : ctx.solids_config level with
    | none => rw [hc] at he; exact ih e he
    | some specs =>
      rw [hc] at he
      rcases seqT_mem _ _ e he with h | h
      · exact typeMatsSpecs_shape ctx n v specs e h
      · exact ih e h

theorem create_type_materializations_shape (ctx : StepContextM) (n : String) (v : Val) :
    ∀ e ∈ (create_type_materializations ctx n v).1,
      ∃ m, e = DagsterEventM.stepMaterialization m none :=
  fun e he => typeMatsLevels_shape ctx n v ctx.solid_handle e he

theorem store_finish_events_shape (handle : StepOutputHandle) (o : OutputLike)
    (ia : List AssetPartitions) (od : OutputDefM) (mgr : IOManagerM)
    (flat : List (String × Option String)) (mmap : List (Option String × List EMeta))
    (mmats : List AssetMaterialization) (mmeta : List MetaEntry) :
    ∀ e ∈ (store_finish handle o ia od mgr flat mmap mmats mmeta).1,
      (∃ m, e = DagsterEventM.stepMaterialization m (some ia)) ∨
      (∃ nm mk mo md, e = DagsterEventM.handledOutput nm mk mo md) := by
  intro e he
  unfold store_finish at he
  cases hro : routeEntries mmap (o.metadata_entries ++ mmeta) with
  | error err => rw [hro] at he; simp at he
  | ok mm =>
    rw [hro] at he
    simp only at he
    rcases List.mem_append.mp he with h | h
    · rcases List.mem_append.mp h with h2 | h2
      · obtain ⟨kp, -, rfl⟩ := List.mem_map.mp h2
        exact Or.inl ⟨_, rfl⟩
      · obtain ⟨m, -, rfl⟩ := List.mem_map.mp h2
        exact Or.inl ⟨m, rfl⟩
    · simp only [List.mem_singleton] at h
      subst h
      exact Or.inr ⟨_, _, _, _, rfl⟩

theorem store_output_events_shape (ctx : StepContextM) (handle : StepOutputHandle)
    (o : OutputLike) (ia : List AssetPartitions) :
    ∀ e ∈ (store_output ctx handle o ia).1,
      (∃ m, e = DagsterEventM.stepMaterialization m (some ia)) ∨
      (∃ nm mk mo md, e = DagsterEventM.handledOutput nm mk mo md) := by
  intro e he
  unfold store_output at he
  cases hf : ctx.step_outputs.find? (fun od => od.name = handle.output_name) with
  | none => rw [hf] at he; simp at he
  | some od =>
    simp only [hf] at he
    cases hap : asset_partitions_for_output od od.manager with
    | error err => simp only [hap] at he; simp at he
    | ok apOpt =>
      simp only [hap] at he
      cases hho : od.manager.handle_output o.value with
      | raises exc => simp only [hho] at he; simp at he
      | returnsNone =>
        simp only [hho] at he
        exact store_finish_events_shape handle o ia od od.manager _ _ [] [] e he
      | returnsGen elts pull =>
        simp only [hho] at he
        cases hcl : classifyStoreElts elts with
        | error err => simp only [hcl] at he; simp at he
        | ok parts =>
          simp only [hcl] at he
          cases pull with
          | some exc => simp only at he; simp at he
          | none =>
            simp only at he
            exact store_finish_events_shape handle o ia od od.manager _ _ parts.1 parts.2 e he

theorem type_check_output_shape (ctx : StepContextM) (handle : StepOutputHandle) (o : OutputLike)
    (version : Option String) :
    ∀ e ∈ (type_check_output ctx handle o version).1, isStepOutputEvt e = true := by
  intro e he
  unfold type_check_output at he
  cases hf : ctx.step_outputs.find? (fun od => od.name = o.output_name) with
  | none => rw [hf] at he; simp at he
  | some od =>
    rw [hf] at he
    simp only [List.mem_singleton] at he
    subst he
    rfl

theorem tcs_events_shape (ctx : StepContextM) (o : OutputLike) (ia : List AssetPartitions) :
    ∀ e ∈ (type_check_and_store_output ctx o ia).1,
      isStepOutputEvt e = true ∨
      (∃ m iaa, e = DagsterEventM.stepMaterialization m iaa ∧ (iaa = some ia ∨ iaa = none)) ∨
      (∃ nm mk mo md, e = DagsterEventM.handledOutput nm mk mo md) := by
  intro e he
  unfold type_check_and_store_output at he
  cases h1 : (type_check_output ctx ⟨ctx.step_key, o.output_name, o.mapping_key⟩ o
      (if ctx.memoized_run = true then
        ctx.resolve_version ⟨ctx.step_key, o.output_name, o.mapping_key⟩ else none)).2 with
  | some e1 =>
    simp only [h1] at he
    exact Or.inl (type_check_output_shape ctx _ o _ e he)
  | none =>
    simp only [h1] at he
    cases h2 : (store_output ctx ⟨ctx.step_key, o.output_name, o.mapping_key⟩ o ia).2 with
    | some e2 =>
      simp only [h2] at he
      rcases List.mem_append.mp he with h | h
      · exact Or.inl (type_check_output_shape ctx _ o _ e h)
      · rcases store_output_events_shape ctx _ o ia e h with hm | hh
        · exact Or.inr (Or.inl ⟨hm.choose, some ia, hm.choose_spec, Or.inl rfl⟩)
        · exact Or.inr (Or.inr hh)
    | none =>
      simp only [h2] at he
      rcases List.mem_append.mp he with h | h
      · rcases List.mem_append.mp h with h3 | h3
        · exact Or.inl (type_check_output_shape ctx _ o _ e h3)
        · rcases store_output_events_shape ctx _ o ia e h3 with hm | hh
          · exact Or.inr (Or.inl ⟨hm.choose, some ia, hm.choose_spec, Or.inl rfl⟩)
          · exact Or.inr (Or.inr hh)
      · obtain ⟨m, rfl⟩ := create_type_materializations_shape ctx o.output_name o.value e h
        exact Or.inr (Or.inl ⟨m, none, rfl, Or.inr rfl⟩)

theorem dispatchGo_events_shape (ctx : StepContextM) (ia : List AssetPartitions) :
    ∀ items e, e ∈ (dispatchGo ctx ia items).events →
      isStartLike e = false ∧ isSuccessEvt e = false ∧
      (∀ m iaa, e = DagsterEventM.stepMaterialization m iaa → iaa = some ia ∨ iaa = none) := by
  have hshape : ∀ (e : DagsterEventM),
      (isStepOutputEvt e = true ∨
        (∃ m iaa, e = DagsterEventM.stepMaterialization m iaa ∧ (iaa = some ia ∨ iaa = none)) ∨
        (∃ nm mk mo md, e = DagsterEventM.handledOutput nm mk mo md)) →
      isStartLike e = false ∧ isSuccessEvt e = false ∧
      (∀ m iaa, e = DagsterEventM.stepMaterialization m iaa → iaa = some ia ∨ iaa = none) := by
    intro e h
    rcases h with h | ⟨m, iaa, rfl, hia⟩ | ⟨nm, mk, mo, md, rfl⟩
    · cases e <;> simp_all [isStepOutputEvt, isStartLike, isSuccessEvt]
    · refine ⟨rfl, rfl, ?_⟩
      intro m2 iaa2 heq
      cases heq
      exact hia
    · exact ⟨rfl, rfl, fun m2 iaa2 heq => DagsterEventM.noConfusion heq⟩
  intro items
  induction items with
  | nil => intro e he; simp [dispatchGo] at he
  | cons y rest ih =>
    intro e he
    cases y with
    | out o =>
      unfold dispatchGo at he
      cases h2 : (type_check_and_store_output ctx o.toLike ia).2.2 with
      | some err =>
        simp only [h2] at he
        exact hshape e (tcs_events_shape ctx o.toLike ia e he)
      | none =>
        simp only [h2] at he
        rcases List.mem_append.mp he with h | h
        · exact hshape e (tcs_events_shape ctx o.toLike ia e h)
        · exact ih e h
    | dynOut d =>
      unfold dispatchGo at he
      cases h2 : (type_check_and_store_output ctx d.toLike ia).2.2 with
      | some err =>
        simp only [h2] at he
        exact hshape e (tcs_events_shape ctx d.toLike ia e he)
      | none =>
        simp only [h2] at he
        rcases List.mem_append.mp he with h | h
        · exact hshape e (tcs_events_shape ctx d.toLike ia e h)
        · exact ih e h
    | matEvt m =>
      rw [show (dispatchGo ctx ia (.matEvt m :: rest)).events =
        DagsterEventM.stepMaterialization m (some ia) ::
          (dispatchGo ctx ia rest).events from rfl] at he
      rcases List.mem_cons.mp he with rfl | h2
      · refine ⟨rfl, rfl, ?_⟩
        intro m2 iaa2 heq
        cases heq
        exact Or.inl rfl
      · exact ih e h2
    | expectation r =>
      rw [show (dispatchGo ctx ia (.expectation r :: rest)).events =
        DagsterEventM.stepExpectationResult r :: (dispatchGo ctx ia rest).events from rfl] at he
      rcases List.mem_cons.mp he with rfl | h2
      · exact ⟨rfl, rfl, fun m2 iaa2 heq => DagsterEventM.noConfusion heq⟩
      · exact ih e h2
    | unexpected t =>
      rw [show (dispatchGo ctx ia (.unexpected t :: rest)).events = [] from rfl] at he
      simp at he

theorem loadItemsGo_events_shape (name : String) :
    ∀ items acc e, e ∈ (loadItemsGo name items acc).events →
      ∃ tag, e = DagsterEventM.externalEvt tag := by
  intro items
  induction items with
  | nil => intro acc e he; simp [loadItemsGo] at he
  | cons it rest ih =>
    intro acc e he
    cases it with
    | evt tag =>
      rw [show (loadItemsGo name (.evt tag :: rest) acc).events =
        DagsterEventM.externalEvt tag :: (loadItemsGo name rest acc).events from rfl] at he
      rcases List.mem_cons.mp he with rfl | h2
      · exact ⟨tag, rfl⟩
      · exact ih acc e h2
    | value v =>
      unfold loadItemsGo at he
      by_cases hin : acc.any (fun kv => kv.1 = name)
      · simp only [hin, if_pos] at he
        simp at he
      · simp only [hin, Bool.false_eq_true, if_false] at he
        exact ih _ e he

theorem inputsPhase_events_shape (ctx : StepContextM) :
    ∀ sis acc assets e, e ∈ (inputsPhase ctx sis acc assets).events →
      ∃ tag, e = DagsterEventM.externalEvt tag := by
  intro sis
  induction sis with
  | nil => intro acc assets e he; simp [inputsPhase] at he
  | cons si rest ih =>
    intro acc assets e he
    unfold inputsPhase at he
    by_cases hk : si.dagster_type.kind = TypeKind.nothingKind
    · rw [if_pos hk] at he
      exact ih _ _ e he
    · rw [if_neg hk] at he
      cases hl : (loadItemsGo si.name si.load_items acc).err with
      | some err =>
        simp only [hl] at he
        exact loadItemsGo_events_shape si.name si.load_items acc e he
      | none =>
        simp only [hl] at he
        rcases List.mem_append.mp he with h | h
        · exact loadItemsGo_events_shape si.name si.load_items acc e h
        · exact ih _ _ e h

theorem type_checked_input_shape (ctx : StepContextM) (n : String) (v : Val) :
    ∀ e ∈ (type_checked_event_sequence_for_input ctx n v).1,
      ∃ nm s d md, e = DagsterEventM.stepInputEvt nm s d md := by
  intro e he
  unfold type_checked_event_sequence_for_input at he
  cases hf : ctx.step_inputs.find? (fun si => si.name = n) with
  | none => rw [hf] at he; simp at he
  | some si =>
    rw [hf] at he
    simp only [List.mem_singleton] at he
    subst he
    exact ⟨_, _, _, _, rfl⟩

theorem inputChecksGo_events_shape (ctx : StepContextM) :
    ∀ l e, e ∈ (inputChecksGo ctx l).1 →
      ∃ nm s d md, e = DagsterEventM.stepInputEvt nm s d md := by
  intro l
  induction l with
  | nil => intro e he; simp [inputChecksGo] at he
  | cons nv rest ih =>
    intro e he
    unfold inputChecksGo at he
    cases hr : (type_checked_event_sequence_for_input ctx nv.1 nv.2).2 with
    | some err =>
      simp only [hr] at he
      exact type_checked_input_shape ctx nv.1 nv.2 e he
    | none =>
      simp only [hr] at he
      rcases List.mem_append.mp he with h | h
      · exact type_checked_input_shape ctx nv.1 nv.2 e h
      · exact ih e h

theorem midEvtOk_external (ctx : StepContextM) (tag : Nat) :
    midEvtOk ctx (DagsterEventM.externalEvt tag) :=
  ⟨rfl, rfl, fun m iaa heq => DagsterEventM.noConfusion heq⟩

theorem midEvtOk_inputEvt (ctx : StepContextM) (nm : String) (s : Bool) (d : Option String)
    (md : List EMeta) : midEvtOk ctx (DagsterEventM.stepInputEvt nm s d md) :=
  ⟨rfl, rfl, fun m iaa heq => DagsterEventM.noConfusion heq⟩

theorem midEvtOk_dispatch (ctx : StepContextM) (items : List SolidOutputUnionM) :
    ∀ e ∈ (dispatchGo ctx (dedup_asset_partitions (collectedInputAssets ctx)) items).events,
      midEvtOk ctx e := by
  intro e he
  obtain ⟨h1, h2, h3⟩ :=
    dispatchGo_events_shape ctx (dedup_asset_partitions (collectedInputAssets ctx)) items e he
  refine ⟨h1, h2, ?_⟩
  intro m iaa heq
  rcases h3 m iaa heq with h | h
  · exact Or.inr h
  · exact Or.inl h

theorem core_structure (ctx : StepContextM) (prior : Nat) (gen : ComputeGen) :
    ∃ mid, (core_dagster_event_sequence_for_step ctx prior gen).events =
        startEventFor prior :: mid
      ∧ (∀ e ∈ mid, midEvtOk ctx e ∨ e = DagsterEventM.stepSuccess 0)
      ∧ ((core_dagster_event_sequence_for_step ctx prior gen).err = none →
          ∃ pre, mid = pre ++ [DagsterEventM.stepSuccess 0] ∧ ∀ e ∈ pre, midEvtOk ctx e)
      ∧ ((core_dagster_event_sequence_for_step ctx prior gen).err ≠ none →
          ∀ e ∈ mid, midEvtOk ctx e) := by
  have hipsh : ∀ e ∈ (inputsPhase ctx ctx.step_inputs [] []).events, midEvtOk ctx e := by
    intro e he
    obtain ⟨tag, rfl⟩ := inputsPhase_events_shape ctx _ _ _ e he
    exact midEvtOk_external ctx tag
  have hicsh : ∀ e ∈ (inputChecksGo ctx (inputsPhase ctx ctx.step_inputs [] []).inputs).1,
      midEvtOk ctx e := by
    intro e he
    obtain ⟨nm, s, d, md, rfl⟩ := inputChecksGo_events_shape ctx _ e he
    exact midEvtOk_inputEvt ctx nm s d md
  have hdisp : ∀ e ∈ (dispatchGo ctx
      (dedup_asset_partitions (inputsPhase ctx ctx.step_inputs [] []).input_assets)
      (classifierGo ctx (user_event_sequence_for_step_compute_fn ctx gen).1
        (user_event_sequence_for_step_compute_fn ctx gen).2 [] []).1).events,
      midEvtOk ctx e :=
    midEvtOk_dispatch ctx _
  unfold core_dagster_event_sequence_for_step
  cases hip : (inputsPhase ctx ctx.step_inputs [] []).err with
  | some e0 =>
    simp only [hip]
    refine ⟨(inputsPhase ctx ctx.step_inputs [] []).events, rfl, ?_, ?_, ?_⟩
    · intro e he; exact Or.inl (hipsh e he)
    · intro h; exact absurd h (by simp)
    · intro _ e he; exact hipsh e he
  | none =>
    simp only [hip]
    cases hic : (inputChecksGo ctx (inputsPhase ctx ctx.step_inputs [] []).inputs).2 with
    | some e0 =>
      simp only [hic]
      refine ⟨(inputsPhase ctx ctx.step_inputs [] []).events ++
        (inputChecksGo ctx (inputsPhase ctx ctx.step_inputs [] []).inputs).1, rfl, ?_, ?_, ?_⟩
      · intro e he
        rcases List.mem_append.mp he with h | h
        · exact Or.inl (hipsh e h)
        · exact Or.inl (hicsh e h)
      · intro h; exact absurd h (by simp)
      · intro _ e he
        rcases List.mem_append.mp he with h | h
        · exact hipsh e h
        · exact hicsh e h
    | none =>
      simp only [hic]
      cases hd : (dispatchGo ctx
          (dedup_asset_partitions (inputsPhase ctx ctx.step_inputs [] []).input_assets)
          (classifierGo ctx (user_event_sequence_for_step_compute_fn ctx gen).1
            (user_event_sequence_for_step_compute_fn ctx gen).2 [] []).1).err with
      | some e0 =>
        simp only [hd]
        refine ⟨(inputsPhase ctx ctx.step_inputs [] []).events ++
          (inputChecksGo ctx (inputsPhase ctx ctx.step_inputs [] []).inputs).1 ++
          (dispatchGo ctx
            (dedup_asset_partitions (inputsPhase ctx ctx.step_inputs [] []).input_assets)
            (classifierGo ctx (user_event_sequence_for_step_compute_fn ctx gen).1
              (user_event_sequence_for_step_compute_fn ctx gen).2 [] []).1).events,
          rfl, ?_, ?_, ?_⟩
        · intro e he
          rcases List.mem_append.mp he with h | h
          · rcases List.mem_append.mp h with h2 | h2
            · exact Or.inl (hipsh e h2)
            · exact Or.inl (hicsh e h2)
          · exact Or.inl (hdisp e h)
        · intro h; exact absurd h (by simp)
        · intro _ e he
          rcases List.mem_append.mp he with h | h
          · rcases List.mem_append.mp h with h2 | h2
            · exact hipsh e h2
            · exact hicsh e h2
          · exact hdisp e h
      | none =>
        simp only [hd]
        cases hcl : (classifierGo ctx (user_event_sequence_for_step_compute_fn ctx gen).1
            (user_event_sequence_for_step_compute_fn ctx gen).2 [] []).2 with
        | some e0 =>
          simp only [hcl]
          refine ⟨(inputsPhase ctx ctx.step_inputs [] []).events ++
            (inputChecksGo ctx (inputsPhase ctx ctx.step_inputs [] []).inputs).1 ++
            (dispatchGo ctx
              (dedup_asset_partitions (inputsPhase ctx ctx.step_inputs [] []).input_assets)
              (classifierGo ctx (user_event_sequence_for_step_compute_fn ctx gen).1
                (user_event_sequence_for_step_compute_fn ctx gen).2 [] []).1).events,
            rfl, ?_, ?_, ?_⟩
          · intro e he
            rcases List.mem_append.mp he with h | h
            · rcases List.mem_append.mp h with h2 | h2
              · exact Or.inl (hipsh e h2)
              · exact Or.inl (hicsh e h2)
            · exact Or.inl (hdisp e h)
          · intro h; exact absurd h (by simp)
          · intro _ e he
            rcases List.mem_append.mp he with h | h
            · rcases List.mem_append.mp h with h2 | h2
              · exact hipsh e h2
              · exact hicsh e h2
            · exact hdisp e h
        | none =>
          simp only [hcl]
          refine ⟨(inputsPhase ctx ctx.step_inputs [] []).events ++
            (inputChecksGo ctx (inputsPhase ctx ctx.step_inputs [] []).inputs).1 ++
            (dispatchGo ctx
              (dedup_asset_partitions (inputsPhase ctx ctx.step_inputs [] []).input_assets)
              (classifierGo ctx (user_event_sequence_for_step_compute_fn ctx gen).1
                (user_event_sequence_for_step_compute_fn ctx gen).2 [] []).1).events ++
            [DagsterEventM.stepSuccess 0], rfl, ?_, ?_, ?_⟩
          · intro e he
            rcases List.mem_append.mp he with h | h
            · rcases List.mem_append.mp h with h2 | h2
              · rcases List.mem_append.mp h2 with h3 | h3
                · exact Or.inl (hipsh e h3)
                · exact Or.inl (hicsh e h3)
              · exact Or.inl (hdisp e h2)
            · simp only [List.mem_singleton] at h
              exact Or.inr h
          · intro _
            refine ⟨(inputsPhase ctx ctx.step_inputs [] []).events ++
              (inputChecksGo ctx (inputsPhase ctx ctx.step_inputs [] []).inputs).1 ++
              (dispatchGo ctx
                (dedup_asset_partitions (inputsPhase ctx ctx.step_inputs [] []).input_assets)
                (classifierGo ctx (user_event_sequence_for_step_compute_fn ctx gen).1
                  (user_event_sequence_for_step_compute_fn ctx gen).2 [] []).1).events,
              rfl, ?_⟩
            intro e he
            rcases List.mem_append.mp he with h | h
            · rcases List.mem_append.mp h with h2 | h2
              · exact hipsh e h2
              · exact hicsh e h2
            · exact hdisp e h
          · intro h; exact absurd rfl h

/-- C7 counterexample: in the `matzCtx` run the Type Materializer Dispatch
emits a materialization event carrying NO input-asset list, although the
deduplicated collected input claims are the nonempty list `[assetX]` — so
the deduplicated list is not attached to every materialization event. -/
theorem c7_counterexample_materializer_event :
    DagsterEventM.stepMaterialization ⟨"m-asset", none, []⟩ none ∈
      (core_dagster_event_sequence_for_step matzCtx 0
        ⟨[.out ⟨"res", some 1, []⟩], none⟩).events
    ∧ dedup_asset_partitions (collectedInputAssets matzCtx) = [⟨"assetX", []⟩]
    ∧ (none : Option (List AssetPartitions)) ≠
        some (dedup_asset_partitions (collectedInputAssets matzCtx)) := by
  refine ⟨by decide, rfl, by simp⟩

/-- C7 (amended): the input asset claims are deduplicated once and the
deduplicated list is attached to the Output Store's materialization events
(per-partition and backend-returned) and to manually yielded forwarded
materializations; the Type Materializer Dispatch events carry NO input
asset list; hence every materialization event of a step run carries either
the deduplicated list or nothing. -/
theorem c7_dedup_threading :
    (∀ ctx handle o ia m ia2,
      DagsterEventM.stepMaterialization m ia2 ∈
        (store_output (ctx : StepContextM) handle o ia).1 → ia2 = some ia)
    ∧ (∀ ctx n v m ia2, DagsterEventM.stepMaterialization m ia2 ∈
        (create_type_materializations (ctx : StepContextM) n v).1 → ia2 = none)
    ∧ (∀ ctx ia items m, SolidOutputUnionM.matEvt m ∈ items →
        (dispatchGo (ctx : StepContextM) ia items).err = none →
        DagsterEventM.stepMaterialization m (some ia) ∈ (dispatchGo ctx ia items).events)
    ∧ (∀ ctx prior gen m ia2, DagsterEventM.stepMaterialization m ia2 ∈
        (core_dagster_event_sequence_for_step (ctx : StepContextM) prior gen).events →
        ia2 = none ∨ ia2 = some (dedup_asset_partitions (collectedInputAssets ctx))) := by
  refine ⟨?_, ?_, ?_, ?_⟩
  · intro ctx handle o ia m ia2 hmem
    rcases store_output_events_shape ctx handle o ia _ hmem with ⟨m2, heq⟩ | ⟨nm, mk, mo, md, heq⟩
    · cases heq
      rfl
    · exact DagsterEventM.noConfusion heq
  · intro ctx n v m ia2 hmem
    obtain ⟨m2, heq⟩ := create_type_materializations_shape ctx n v _ hmem
    cases heq
    rfl
  · intro ctx ia items
    induction items with
    | nil => intro m hm; simp at hm
    | cons y rest ih =>
      intro m hm herr
      cases y with
      | out o =>
        unfold dispatchGo at herr ⊢
        cases h2 : (type_check_and_store_output ctx o.toLike ia).2.2 with
        | some e =>
          simp only [h2] at herr
          exact absurd herr (by simp)
        | none =>
          simp only [h2] at herr ⊢
          rcases List.mem_cons.mp hm with heq | hm2
          · exact absurd heq (by simp)
          · exact List.mem_append_right _ (ih m hm2 herr)
      | dynOut d =>
        unfold dispatchGo at herr ⊢
        cases h2 : (type_check_and_store_output ctx d.toLike ia).2.2 with
        | some e =>
          simp only [h2] at herr
          exact absurd herr (by simp)
        | none =>
          simp only [h2] at herr ⊢
          rcases List.mem_cons.mp hm with heq | hm2
          · exact absurd heq (by simp)
          · exact List.mem_append_right _ (ih m hm2 herr)
      | matEvt m2 =>
        rcases List.mem_cons.mp hm with heq | hm2
        · cases heq
          exact List.mem_cons_self _ _
        · have herr2 : (dispatchGo ctx ia rest).err = none := herr
          exact List.mem_cons_of_mem _ (ih m hm2 herr2)
      | expectation r =>
        rcases List.mem_cons.mp hm with heq | hm2
        · exact absurd heq (by simp)
        · have herr2 : (dispatchGo ctx ia rest).err = none := herr
          exact List.mem_cons_of_mem _ (ih m hm2 herr2)
      | unexpected t =>
        exact absurd herr (by simp [dispatchGo])
  · intro ctx prior gen m ia2 hmem
    obtain ⟨mid, hev, hmid, -, -⟩ := core_structure ctx prior gen
    rw [hev] at hmem
    rcases List.mem_cons.mp hmem with heq | hm2
    · exfalso
      unfold startEventFor at heq
      by_cases hp : prior > 0
      · rw [if_pos hp] at heq
        exact DagsterEventM.noConfusion heq
      · rw [if_neg hp] at heq
        exact DagsterEventM.noConfusion heq
    · rcases hmid _ hm2 with hok | heq
      · exact hok.2.2 m ia2 rfl
      · exact DagsterEventM.noConfusion heq

/-- Witness for C7 (amended) at concrete runs: the store materialization in
`assetCtx` carries the given input-asset list; the materializer event in
the `matzCtx` run carries either nothing or the deduplicated list. -/
theorem c7_dedup_threading_witness :
    ((some [(⟨"in-asset", []⟩ : AssetPartitions)] : Option (List AssetPartitions)) =
      some [⟨"in-asset", []⟩])
    ∧ ((none : Option (List AssetPartitions)) = none ∨
        (none : Option (List AssetPartitions)) =
          some (dedup_asset_partitions (collectedInputAssets matzCtx))) := by
  constructor
  · exact c7_dedup_threading.1 assetCtx ⟨"step1", "res", none⟩ ⟨"res", some 1, [], none⟩
      [⟨"in-asset", []⟩] ⟨"a", some "p", []⟩ (some [⟨"in-asset", []⟩]) (by decide)
  · exact c7_dedup_threading.2.2.2 matzCtx 0 ⟨[.out ⟨"res", some 1, []⟩], none⟩
      ⟨"m-asset", none, []⟩ none (by decide)

theorem type_check_output_res (ctx : StepContextM) (handle : StepOutputHandle) (o : OutputLike)
    (version : Option String) (od : OutputDefM)
    (hf : ctx.step_outputs.find? (fun d => d.name = o.output_name) = some od) :
    type_check_output ctx handle o version =
      ([DagsterEventM.stepOutputEvt handle (do_type_check od.dagster_type o.value).success
          (do_type_check od.dagster_type o.value).description
          (do_type_check od.dagster_type o.value).metadata_entries version
          (plainEntries o.metadata_entries)],
        if (do_type_check od.dagster_type o.value).success = true then none
        else some (.typeCheckDidNotPass ("Type check failed for step output " ++ o.output_name)
          (do_type_check od.dagster_type o.value).metadata_entries)) := by
  unfold type_check_output
  rw [hf]

theorem type_check_output_nodef (ctx : StepContextM) (handle : StepOutputHandle) (o : OutputLike)
    (version : Option String)
    (hf : ctx.step_outputs.find? (fun d => d.name = o.output_name) = none) :
    type_check_output ctx handle o version =
      ([], some (.checkError "solid has no output def named output_name")) := by
  unfold type_check_output
  rw [hf]

/-- C1: on runs completing without failure the event sequence begins with
exactly one start event — a restarted event carrying the attempt count iff
`prior_attempt_count > 0` — and ends with exactly one success event; on
failure no terminal event is emitted; for each produced output the
type-check event heads that output's dispatch segment (every
materialization / handled-output event of the segment comes after it); and
a successful store emits one materialization per resolved (asset,
partition) pair with its bucket, then one per backend-returned
materialization record, then exactly one handled-output event carrying only
the backend-returned non-partition-targeted metadata entries. -/
theorem c1_step_event_protocol :
    (∀ ctx prior gen,
      ((core_dagster_event_sequence_for_step ctx prior gen).err = none →
        (core_dagster_event_sequence_for_step ctx prior gen).events.head? =
          some (startEventFor prior)
        ∧ (∀ k, (core_dagster_event_sequence_for_step ctx prior gen).events.head? =
            some (DagsterEventM.stepRestarted k) ↔ prior > 0 ∧ k = prior)
        ∧ ((core_dagster_event_sequence_for_step ctx prior gen).events.filter
            isStartLike).length = 1
        ∧ (core_dagster_event_sequence_for_step ctx prior gen).events.getLast? =
            some (DagsterEventM.stepSuccess 0)
        ∧ ((core_dagster_event_sequence_for_step ctx prior gen).events.filter
            isSuccessEvt).length = 1)
      ∧ ((core_dagster_event_sequence_for_step ctx prior gen).err ≠ none →
        ∀ d, DagsterEventM.stepSuccess d ∉
          (core_dagster_event_sequence_for_step ctx prior gen).events))
    ∧ (∀ ctx o ia, (type_check_and_store_output (ctx : StepContextM) (o : OutputLike) ia).1 = []
        ∨ ∃ succ desc meta ver tl, (type_check_and_store_output ctx o ia).1 =
          DagsterEventM.stepOutputEvt ⟨ctx.step_key, o.output_name, o.mapping_key⟩ succ desc
            meta ver (plainEntries o.metadata_entries) :: tl
          ∧ ∀ e ∈ tl, isStepOutputEvt e = false)
    ∧ (∀ ctx handle o ia od apOpt mmats mmeta mm,
        (ctx : StepContextM).step_outputs.find?
          (fun d => d.name = (handle : StepOutputHandle).output_name) = some od →
        asset_partitions_for_output od od.manager = Except.ok apOpt →
        (od.manager.handle_output (o : OutputLike).value = HandleOutputRet.returnsNone ∧
            mmats = [] ∧ mmeta = [] ∨
          ∃ elts, od.manager.handle_output o.value = HandleOutputRet.returnsGen elts none ∧
            classifyStoreElts elts = Except.ok (mmats, mmeta)) →
        routeEntries (initMetadataMapping (flatten_asset_partitions apOpt))
          (o.metadata_entries ++ mmeta) = Except.ok mm →
        store_output ctx handle o ia =
          ((flatten_asset_partitions apOpt).map (fun kp =>
            DagsterEventM.stepMaterialization ⟨kp.1, kp.2, bucketOf mm kp.2⟩ (some ia))
          ++ mmats.map (fun m => DagsterEventM.stepMaterialization m (some ia))
          ++ [DagsterEventM.handledOutput handle.output_name od.io_manager_key
              (if od.manager.isIntermediateAdapter then
                some "Handled input using intermediate storage" else none)
              (plainEntries mmeta)], none)) := by
  refine ⟨?_, ?_, ?_⟩
  · intro ctx prior gen
    obtain ⟨mid, hev, hmid, hsuccpath, hfailpath⟩ := core_structure ctx prior gen
    have hstartSL : isStartLike (startEventFor prior) = true := by
      unfold startEventFor
      split <;> rfl
    have hstartSE : isSuccessEvt (startEventFor prior) = false := by
      unfold startEventFor
      split <;> rfl
    constructor
    · intro herr
      obtain ⟨pre, hpre, hpreok⟩ := hsuccpath herr
      rw [hpre] at hev
      refine ⟨?_, ?_, ?_, ?_, ?_⟩
      · rw [hev]
        rfl
      · intro k
        rw [hev]
        simp only [List.head?_cons, Option.some.injEq]
        by_cases hp : prior > 0
        · have hse : startEventFor prior = DagsterEventM.stepRestarted prior := by
            unfold startEventFor
            rw [if_pos hp]
          rw [hse]
          constructor
          · intro hk
            exact ⟨hp, (DagsterEventM.stepRestarted.injEq _ _ ▸ hk).symm⟩
          · rintro ⟨-, rfl⟩
            rfl
        · have hse : startEventFor prior = DagsterEventM.stepStart := by
            unfold startEventFor
            rw [if_neg hp]
          rw [hse]
          constructor
          · intro hk
            exact DagsterEventM.noConfusion hk
          · rintro ⟨hpp, -⟩
            exact absurd hpp hp
      · rw [hev, List.filter_cons, hstartSL]
        simp only [if_true]
        rw [List.filter_append]
        have h2 : pre.filter isStartLike = [] :=
          List.filter_eq_nil_iff.mpr (fun e he => by simp [(hpreok e he).1])
        rw [h2]
        rfl
      · rw [hev, show startEventFor prior :: (pre ++ [DagsterEventM.stepSuccess 0]) =
          (startEventFor prior :: pre) ++ [DagsterEventM.stepSuccess 0] from rfl,
          List.getLast?_concat]
      · rw [hev, List.filter_cons, hstartSE]
        simp only [Bool.false_eq_true, if_false]
        rw [List.filter_append]
        have h2 : pre.filter isSuccessEvt = [] :=
          List.filter_eq_nil_iff.mpr (fun e he => by simp [(hpreok e he).2.1])
        rw [h2]
        rfl
    · intro herr d hmem
      rw [hev] at hmem
      rcases List.mem_cons.mp hmem with heq | hmem2
      · rw [← heq] at hstartSE
        exact Bool.noConfusion hstartSE
      · have := (hfailpath herr _ hmem2).2.1
        exact Bool.noConfusion this
  · intro ctx o ia
    cases hf : ctx.step_outputs.find? (fun d => d.name = o.output_name) with
    | none =>
      refine Or.inl ?_
      have h1 := type_check_output_nodef ctx ⟨ctx.step_key, o.output_name, o.mapping_key⟩ o
        (if ctx.memoized_run = true then
          ctx.resolve_version ⟨ctx.step_key, o.output_name, o.mapping_key⟩ else none) hf
      unfold type_check_and_store_output
      simp only [h1]
    | some od =>
      refine Or.inr ?_
      have h1 := type_check_output_res ctx ⟨ctx.step_key, o.output_name, o.mapping_key⟩ o
        (if ctx.memoized_run = true then
          ctx.resolve_version ⟨ctx.step_key, o.output_name, o.mapping_key⟩ else none) od hf
      by_cases hsuc : (do_type_check od.dagster_type o.value).success = true
      · cases hst : (store_output ctx ⟨ctx.step_key, o.output_name, o.mapping_key⟩ o ia).2 with
        | some e2 =>
          refine ⟨(do_type_check od.dagster_type o.value).success,
            (do_type_check od.dagster_type o.value).description,
            (do_type_check od.dagster_type o.value).metadata_entries,
            (if ctx.memoized_run = true then
              ctx.resolve_version ⟨ctx.step_key, o.output_name, o.mapping_key⟩ else none),
            (store_output ctx ⟨ctx.step_key, o.output_name, o.mapping_key⟩ o ia).1, ?_, ?_⟩
          · unfold type_check_and_store_output
            simp only [h1, hsuc, if_true, hst]
            rfl
          · intro e he
            rcases store_output_events_shape ctx _ o ia e he with ⟨m, rfl⟩ | ⟨nm, mk, mo, md, rfl⟩
            · rfl
            · rfl
        | none =>
          refine ⟨(do_type_check od.dagster_type o.value).success,
            (do_type_check od.dagster_type o.value).description,
            (do_type_check od.dagster_type o.value).metadata_entries,
            (if ctx.memoized_run = true then
              ctx.resolve_version ⟨ctx.step_key, o.output_name, o.mapping_key⟩ else none),
            (store_output ctx ⟨ctx.step_key, o.output_name, o.mapping_key⟩ o ia).1 ++
              (create_type_materializations ctx o.output_name o.value).1, ?_, ?_⟩
          · unfold type_check_and_store_output
            simp only [h1, hsuc, if_true, hst]
            rfl
          · intro e he
            rcases List.mem_append.mp he with h | h
            · rcases store_output_events_shape ctx _ o ia e h with ⟨m, rfl⟩ | ⟨nm, mk, mo, md, rfl⟩
              · rfl
              · rfl
            · obtain ⟨m, rfl⟩ := create_type_materializations_shape ctx o.output_name o.value e h
              rfl
      · refine ⟨(do_type_check od.dagster_type o.value).success,
          (do_type_check od.dagster_type o.value).description,
          (do_type_check od.dagster_type o.value).metadata_entries,
          (if ctx.memoized_run = true then
            ctx.resolve_version ⟨ctx.step_key, o.output_name, o.mapping_key⟩ else none),
          [], ?_, by simp⟩
        unfold type_check_and_store_output
        simp only [h1, hsuc, Bool.false_eq_true, if_false]
  · intro ctx handle o ia od apOpt mmats mmeta mm hf hap hcollect hroute
    unfold store_output
    rw [hf]
    simp only [hap]
    rcases hcollect with ⟨hho, rfl, rfl⟩ | ⟨elts, hho, hcl⟩
    · simp only [hho]
      exact store_finish_success handle o ia od od.manager (flatten_asset_partitions apOpt)
        [] [] mm hroute
    · simp only [hho, hcl]
      exact store_finish_success handle o ia od od.manager (flatten_asset_partitions apOpt)
        mmats mmeta mm hroute

/-- Witness for C1 at the concrete `c1Ctx` run (non-failure path) and its
concrete store. -/
theorem c1_step_event_protocol_witness :
    (core_dagster_event_sequence_for_step c1Ctx 0 c1Gen).events.head? =
      some (startEventFor 0)
    ∧ ((core_dagster_event_sequence_for_step c1Ctx 0 c1Gen).events.filter isStartLike).length = 1
    ∧ (core_dagster_event_sequence_for_step c1Ctx 0 c1Gen).events.getLast? =
      some (DagsterEventM.stepSuccess 0)
    ∧ ((core_dagster_event_sequence_for_step c1Ctx 0 c1Gen).events.filter isSuccessEvt).length = 1
    ∧ store_output c1Ctx ⟨"step1", "res", none⟩ c1OutLike [⟨"in-asset", ["q"]⟩] =
      ((flatten_asset_partitions (some ⟨"a", ["p1", "p2"]⟩)).map (fun kp =>
        DagsterEventM.stepMaterialization ⟨kp.1, kp.2, bucketOf c1mm kp.2⟩
          (some [⟨"in-asset", ["q"]⟩]))
      ++ ([⟨"extra", none, []⟩] : List AssetMaterialization).map
          (fun m => DagsterEventM.stepMaterialization m (some [⟨"in-asset", ["q"]⟩]))
      ++ [DagsterEventM.handledOutput "res" "io_manager" none (plainEntries [.plain "m-b"])],
        none) := by
  have h := (c1_step_event_protocol.1 c1Ctx 0 c1Gen).1 (by decide)
  refine ⟨h.1, h.2.2.1, h.2.2.2.1, h.2.2.2.2, ?_⟩
  exact c1_step_event_protocol.2.2 c1Ctx ⟨"step1", "res", none⟩ c1OutLike
    [⟨"in-asset", ["q"]⟩] c1OutDef (some ⟨"a", ["p1", "p2"]⟩) [⟨"extra", none, []⟩]
    [.plain "m-b"] c1mm rfl rfl
    (Or.inr ⟨[.metaEntry (.plain "m-b"), .mat ⟨"extra", none, []⟩], rfl, rfl⟩) rfl

end ExecuteStep
